import Mathlib

/-!
Verification development for the PSA card image downloader
(`psa_card_downloader.py`, class `PSACardImageDownloader`).

Strings from the Python source are modelled as `List Char` (`Str`). Pure string
manipulation (regex searches of the concrete patterns used by the source,
`str.strip`/`rstrip`, substring tests, `urlparse().path`, `os.path.basename`)
is embedded as executable Lean functions. Network I/O (HTTP responses, proxy
behaviour, randomness of identity rotation) is modelled by explicit oracles:
a response script decides each request's outcome, so that the control flow of
the Python code around those calls is preserved exactly.
-/

abbrev Str := List Char

/-- `p` is a literal prefix of `s` (Python `s.startswith(p)` / `p in s` helper). -/
def strStarts : Str → Str → Bool
  | _, [] => true
  | [], _ :: _ => false
  | c :: cs, p :: ps => c == p && strStarts cs ps

/-- Python `p in s`: `p` occurs as a contiguous substring of `s`. -/
def containsStr : Str → Str → Bool
  | [], p => strStarts [] p
  | s@(_ :: cs), p => strStarts s p || containsStr cs p

/-- Python `s.endswith(p)`. -/
def strEnds (s p : Str) : Bool := strStarts s.reverse p.reverse

/-- Characters stripped by Python `str.strip()` (ASCII whitespace; the source
only ever strips spacing around URLs). -/
def isPySpace (c : Char) : Bool :=
  c == ' ' || c == '\t' || c == '\n' || c == '\r' || c == '\x0b' || c == '\x0c'

/-- Strip trailing characters satisfying `p` (Python `str.rstrip` with a char set). -/
def rstripChars (p : Char → Bool) (s : Str) : Str :=
  (s.reverse.dropWhile p).reverse

/-- Python `s.rstrip('\\/')`. -/
def rstripSlashBS (s : Str) : Str :=
  rstripChars (fun c => c == '\\' || c == '/') s

/-- Python `s.strip()`. -/
def pyStrip (s : Str) : Str :=
  rstripChars isPySpace (s.dropWhile isPySpace)

/-- Python `s.lower()` (ASCII case folding, as used on URLs in the source). -/
def lowerStr (s : Str) : Str := s.map Char.toLower

def strL (s : String) : Str := s.data

/-! ### `_extract_cert_number` (psa_card_downloader.py lines 82-96)

`re.sub(r'\D', '', cert_input)` removes every non-digit character; the result
is returned unless it is empty, in which case a `ValueError` is raised
(modelled as `Except.error`). -/

def extractCertNumber (cert_input : Str) : Except Unit Str :=
  let cert_number := cert_input.filter Char.isDigit
  if cert_number.isEmpty then .error () else .ok cert_number

/-! ### `_filter_images_by_cert` (lines 547-604)

`re.search(r'/cert/(\d+)', url)` finds the leftmost occurrence of the literal
`/cert/` followed by at least one digit and captures the maximal digit run.
`findCertNum` embeds exactly that search. -/

/-- Leftmost match of the Python regex `/cert/(\d+)`: the captured digit
group, or `none` when no position matches. -/
def findCertNum : Str → Option Str
  | [] => none
  | s@(_ :: cs) =>
    if strStarts s (strL "/cert/") then
      let d := (s.drop 6).takeWhile Char.isDigit
      if d.isEmpty then findCertNum cs else some d
    else findCertNum cs

/-- The per-URL retention test of `_filter_images_by_cert` (lines 564-594):
if the stripped URL contains `/cert/<digits>`, keep it iff the first captured
number equals the requested one; otherwise keep it iff one of the delimited
identifier-token checks succeeds. -/
def keepUrlForCert (cert_num url : Str) : Bool :=
  let url_clean := pyStrip url
  match findCertNum url_clean with
  | some url_cert_num => url_cert_num == cert_num
  | none =>
      containsStr url_clean (strL "/" ++ cert_num ++ strL "/") ||
      strEnds url_clean (strL "/" ++ cert_num) ||
      containsStr url_clean (strL "/" ++ cert_num ++ strL "_") ||
      containsStr url_clean (strL "_" ++ cert_num ++ strL ".") ||
      containsStr url_clean (strL "/cert/" ++ cert_num)

def filterImagesByCert (image_urls : List Str) (cert_number : Str) :
    Except Unit (List Str) :=
  if image_urls.isEmpty then .ok [] else
  (extractCertNumber cert_number).map fun cert_num =>
    image_urls.filter fun url => !url.isEmpty && keepUrlForCert cert_num url

/-- All digit runs that follow an occurrence of `/cert/` anywhere in the
string: the certificate numbers a URL "carries". Used to state the scoping
claim, which speaks of *any* `/cert/<j>` segment of the path. -/
def certNumsIn : Str → List Str
  | [] => []
  | s@(_ :: cs) =>
    if strStarts s (strL "/cert/") then
      let d := (s.drop 6).takeWhile Char.isDigit
      if d.isEmpty then certNumsIn cs else d :: certNumsIn cs
    else certNumsIn cs

/-! ### URL path and basename helpers

`urlparse(url).path` and `os.path.basename` as used by
`_filter_unnecessary_files` and `_deduplicate_by_filename`. `urlPath` models
`urllib.parse.urlparse(url).path` for the URL forms the downloader handles:
absolute `scheme://netloc/path` URLs (path is everything from the first slash
after the netloc, up to any `?` query or `#` fragment) and scheme-less
strings (the whole string, minus query/fragment, is the path).
`osBasename` models `os.path.basename` on a POSIX path: the part after the
last `/`. -/

def takeUntilChar (c : Char) (s : Str) : Str := s.takeWhile (fun x => x ≠ c)

/-- Drop through the first occurrence of `pat`; `none` if absent. -/
def dropThrough (pat : Str) : Str → Option Str
  | [] => if pat.isEmpty then some [] else none
  | s@(_ :: cs) =>
    if strStarts s pat then some (s.drop pat.length) else dropThrough pat cs

def urlPath (url : Str) : Str :=
  let b := takeUntilChar '?' (takeUntilChar '#' url)
  match dropThrough (strL "://") b with
  | some rest => rest.dropWhile (fun c => c ≠ '/')
  | none => b

def osBasename (p : Str) : Str := (p.reverse.takeWhile (fun c => c ≠ '/')).reverse

/-! ### `_filter_unnecessary_files` (lines 606-654)

The denylist, in source order. The source computes `url_lower = url.lower()`
but never uses it: the exclusion test inspects only
`os.path.basename(urlparse(url).path).lower()`. -/

def excludeKeywords : List Str :=
  [strL "table-image", strL "certified", strL "logo", strL "icon",
   strL "button", strL "badge", strL "avatar", strL "spinner",
   strL "loading", strL "placeholder", strL "og-meta", strL "meta",
   strL "og-image", strL "social", strL "share"]

/-- The test `any(keyword in filename for keyword in exclude_keywords)` of
line 644, applied to the lowercased basename of the URL path. -/
def excludedFile (url : Str) : Bool :=
  let filename := lowerStr (osBasename (urlPath url))
  excludeKeywords.any fun keyword => containsStr filename keyword

def filterUnnecessaryFiles (image_urls : List Str) : List Str :=
  image_urls.filter fun url => !excludedFile url

/-! ### `_deduplicate_by_filename` (lines 656-697)

Filenames are derived as `os.path.basename(urlparse(url).path).rstrip('\\/')`.
A URL whose derived filename is empty or contains no `.` is kept
unconditionally (line 678-680); otherwise the first URL carrying each
filename is kept and later ones are dropped. -/

/-- The derived filename of line 674-675:
`os.path.basename(urlparse(url).path).rstrip('\\/')`. -/
def derivedFilename (url : Str) : Str := rstripSlashBS (osBasename (urlPath url))

/-- A derived filename the dedup pass considers usable: nonempty and
containing a dot (the negation of line 678's `not filename or '.' not in
filename`). -/
def validFilename (f : Str) : Bool := !f.isEmpty && f.any (fun c => c == '.')

def dedupFilename' (seen : List Str) : List Str → List Str
  | [] => []
  | url :: rest =>
    if !(validFilename (derivedFilename url)) then
      url :: dedupFilename' seen rest
    else if seen.contains (derivedFilename url) then
      dedupFilename' seen rest
    else
      url :: dedupFilename' (derivedFilename url :: seen) rest

def deduplicateByFilename (image_urls : List Str) : List Str :=
  dedupFilename' [] image_urls

/-- The composed clean step of `get_high_res_images` (lines 1045-1049):
noise filter, then filename dedup. -/
def cleanUrls (urls : List Str) : List Str :=
  deduplicateByFilename (filterUnnecessaryFiles urls)

/-! ### `_is_high_res_image` (lines 699-734)

Substring tests on the lowercased URL. In the source, the final
`re.search(r'\d{3,4}x\d{3,4}', url_lower)` check (line 730) returns `True`
on both branches, so the `/cert/`-or-`card`-or-`image` case always accepts;
the embedding writes that branch as `true` directly. -/

def highResExcludeKeywords : List Str :=
  [strL "logo", strL "icon", strL "avatar", strL "button", strL "badge",
   strL "flag", strL "spinner"]

def imageExtensions : List Str :=
  [strL ".jpg", strL ".jpeg", strL ".png", strL ".webp"]

def highResKeywords : List Str :=
  [strL "highres", strL "high-res", strL "high_res", strL "large",
   strL "original", strL "full", strL "hd", strL "high", strL "big",
   strL "max", strL "cert"]

def isHighResImage (url : Str) : Bool :=
  let url_lower := lowerStr url
  if highResExcludeKeywords.any (fun k => containsStr url_lower k) then false
  else if !(imageExtensions.any fun ext => containsStr url_lower ext) then false
  else if highResKeywords.any (fun k => containsStr url_lower k) then true
  else if containsStr url_lower (strL "/cert/") ||
          containsStr url_lower (strL "card") ||
          containsStr url_lower (strL "image") then true
  else false

/-! ### Strategy 1 of `_find_image_urls` (lines 331-340)

The first extraction pass over `<img>` tags: for each of the six explicit
high-resolution hint attributes, if the tag carries the attribute with a
non-empty value, `urljoin(self.base_url, url)` is appended to the candidate
list provided it is not already present **and** it passes
`_is_high_res_image`. A markup image element is modelled by its attribute
association list. `urljoinM` models `urllib.parse.urljoin` for the forms the
downloader meets: an absolute URL (containing `://`) is returned unchanged; a
root-relative reference replaces the base's path; any other relative
reference replaces the base's last path segment. -/

structure ImgTag where
  attrs : List (Str × Str)

def imgGet (img : ImgTag) (attr : Str) : Option Str :=
  (img.attrs.find? fun p => p.1 == attr).map (·.2)

def schemeNetloc (base : Str) : Str :=
  match dropThrough (strL "://") base with
  | some rest => base.take (base.length - rest.length) ++ rest.takeWhile (fun c => c ≠ '/')
  | none => []

def urljoinM (base url : Str) : Str :=
  if containsStr url (strL "://") then url
  else match url with
    | '/' :: _ => schemeNetloc base ++ url
    | _ => rstripChars (fun c => c ≠ '/') base ++ url

def highResHintAttrs : List Str :=
  [strL "data-highres", strL "data-large", strL "data-original",
   strL "data-full", strL "data-hires", strL "data-src-large"]

def hintStep (base : Str) (img : ImgTag) (image_urls : List Str) (attr : Str) :
    List Str :=
  match imgGet img attr with
  | some url =>
    if url.isEmpty then image_urls
    else
      let full_url := urljoinM base url
      if !(image_urls.contains full_url) && isHighResImage full_url then
        image_urls ++ [full_url]
      else image_urls
  | none => image_urls

def hintPassImg (base : Str) (image_urls : List Str) (img : ImgTag) : List Str :=
  highResHintAttrs.foldl (hintStep base img) image_urls

/-- The candidate list produced by strategy 1 alone (starting from the empty
candidate list, as `_find_image_urls` does at line 318). -/
def findImageUrlsStrategy1 (base : Str) (img_tags : List ImgTag) : List Str :=
  img_tags.foldl (hintPassImg base) []

/-! ### `_get_page_html` endpoint ordering (lines 112-151)

The fetcher state is the remembered preferred endpoint `self.base_url`;
`self.backup_urls` is the fixed list set in `__init__` (lines 37-40). A call
builds `urls_to_try = [self.base_url] + [u for u in self.backup_urls if u !=
self.base_url]`, then for each base tries the concrete page URLs (the plain
path, plus the `/psa` suffixed path on psacard.com, lines 119-128). All
retry, proxy and SSL handling below a single page URL is abstracted into a
response oracle `fetch : page URL → Option markup` (`none` = every attempt on
that URL failed, `some html` = some attempt returned 2xx with body `html`).
On the first URL that succeeds, the source sets `self.base_url` to the
owning base and returns the body (lines 148-151). -/

structure FetchState where
  base_url : Str

def backupUrls : List Str :=
  [strL "https://www.psacard.co.jp/cert", strL "https://www.psacard.com/cert"]

def urlsToTry (st : FetchState) : List Str :=
  st.base_url :: backupUrls.filter fun url => !(url == st.base_url)

def pageUrlsFor (base cert_number : Str) : List Str :=
  if containsStr base (strL "psacard.com") &&
     !(containsStr base (strL "psacard.co.jp")) then
    [base ++ strL "/" ++ cert_number, base ++ strL "/" ++ cert_number ++ strL "/psa"]
  else
    [base ++ strL "/" ++ cert_number]

def tryBases (cert : Str) (fetch : Str → Option Str) :
    List Str → Option (FetchState × Str)
  | [] => none
  | base :: rest =>
    match (pageUrlsFor base cert).findSome? fetch with
    | some html => some (⟨base⟩, html)
    | none => tryBases cert fetch rest

/-- One call of `_get_page_html`: `none` models the aggregated failure raise
(lines 280-305); `some (st', html)` returns the markup and the updated
fetcher state. -/
def getPageHtml (st : FetchState) (cert : Str) (fetch : Str → Option Str) :
    Option (FetchState × Str) :=
  tryBases cert fetch (urlsToTry st)

/-! ### `_convert_to_size` (lines 759-818)

The function cleans the URL (`url.rstrip('\\/').strip()`), then searches for
the case-insensitive pattern
`(https?://[^/]+/cert/\d+)/(small|large|medium|thumb)/([^/?\\]+\.(?:jpg|jpeg|png|webp))`;
if that fails (or the target size is not one of the four known names) it
searches for
`(https?://[^/]+/cert/\d+)/([^/?\\]+\.(?:jpg|jpeg|png|webp))`,
and rebuilds the URL from group 1, the target size segment and group 3
(stripped of `\\/`). The two regexes are embedded as deterministic parsers:
at a given start position every quantifier of these patterns admits exactly
one viable choice except the greedy filename run, which backtracks from the
longest run (`fnameBack`); `re.search` semantics is the leftmost position at
which the parse succeeds (`searchWS`, `searchOrig`). -/

/-- Case-insensitive character comparison (the `re.I` flag). -/
def ciEq (a b : Char) : Bool := a.toLower == b.toLower

/-- Case-insensitively strip a literal pattern, returning the consumed
original characters and the remainder. -/
def stripPrefCI : Str → Str → Option (Str × Str)
  | [], s => some ([], s)
  | _ :: _, [] => none
  | p :: ps, c :: cs =>
    if ciEq c p then
      match stripPrefCI ps cs with
      | some (co, r) => some (c :: co, r)
      | none => none
    else none

/-- First alternative of an ordered alternation that matches a prefix of `s`
(Python's regex alternation tries alternatives left to right). -/
def altFirst (words : List Str) (s : Str) : Option (Str × Str) :=
  match words with
  | [] => none
  | w :: ws =>
    match stripPrefCI w s with
    | some cr => some cr
    | none => altFirst ws s

/-- `https://` with the greedy optional `s` taken. -/
def schemeWithS : Str → Option (Str × Str)
  | c1 :: c2 :: c3 :: c4 :: c5 :: ':' :: '/' :: '/' :: r =>
    if ciEq c1 'h' && ciEq c2 't' && ciEq c3 't' && ciEq c4 'p' && ciEq c5 's' then
      some ([c1, c2, c3, c4, c5, ':', '/', '/'], r)
    else none
  | _ => none

/-- `http://` without the optional `s`. -/
def schemeNoS : Str → Option (Str × Str)
  | d1 :: d2 :: d3 :: d4 :: ':' :: '/' :: '/' :: r =>
    if ciEq d1 'h' && ciEq d2 't' && ciEq d3 't' && ciEq d4 'p' then
      some ([d1, d2, d3, d4, ':', '/', '/'], r)
    else none
  | _ => none

/-- `https?://`: greedy, so the `s` branch is preferred. When the first
character is not `h`/`H` both branches fail, so the parse is cut short. -/
def schemeSplit (s : Str) : Option (Str × Str) :=
  match s with
  | [] => none
  | c :: _ =>
    if ciEq c 'h' then
      match schemeWithS s with
      | some g => some g
      | none => schemeNoS s
    else none

/-- The literal `/cert/` (case-insensitive on the letters). -/
def stripCertSeg : Str → Option (Str × Str)
  | '/' :: c1 :: c2 :: c3 :: c4 :: '/' :: r =>
    if ciEq c1 'c' && ciEq c2 'e' && ciEq c3 'r' && ciEq c4 't' then
      some (['/', c1, c2, c3, c4, '/'], r)
    else none
  | _ => none

def tierWords : List Str := [strL "small", strL "large", strL "medium", strL "thumb"]

def extWords : List Str := [strL "jpg", strL "jpeg", strL "png", strL "webp"]

/-- The filename character class `[^/?\\]`. -/
def allowedF (c : Char) : Bool := !(c == '/' || c == '?' || c == '\\')

/-- Greedy backtracking for `[^/?\\]+\.(?:jpg|jpeg|png|webp)`: try run length
`n`, `n-1`, ..., `1`; a length succeeds when the next character is `.` and an
extension alternative follows. Returns the matched group. -/
def fnameBack (s : Str) : Nat → Option Str
  | 0 => none
  | k + 1 =>
    match s.drop (k + 1) with
    | '.' :: r =>
      match altFirst extWords r with
      | some (ew, _) => some (s.take (k + 1) ++ '.' :: ew)
      | none => fnameBack s k
    | _ => fnameBack s k

def fnameMatch (s : Str) : Option Str :=
  let run := s.takeWhile allowedF
  if run.isEmpty then none else fnameBack s run.length

/-- One attempt of the sized pattern at a fixed position. Returns
(group 1, group 3); group 2 (the size word) is bound by the source
(`size_path`, line 789) but never used. -/
def tryAtWS (s : Str) : Option (Str × Str) :=
  match schemeSplit s with
  | none => none
  | some (sch, r0) =>
    let host := r0.takeWhile fun c => c ≠ '/'
    let r1 := r0.dropWhile fun c => c ≠ '/'
    if host.isEmpty then none else
    match stripCertSeg r1 with
    | none => none
    | some (certSeg, r2) =>
      let ds := r2.takeWhile Char.isDigit
      let r3 := r2.dropWhile Char.isDigit
      if ds.isEmpty then none else
      match r3 with
      | [] => none
      | c3 :: r4 =>
        if c3 = '/' then
          match altFirst tierWords r4 with
          | none => none
          | some (_tw, r5) =>
            match r5 with
            | [] => none
            | c5 :: r6 =>
              if c5 = '/' then
                match fnameMatch r6 with
                | none => none
                | some g3 => some (sch ++ host ++ certSeg ++ ds, g3)
              else none
        else none

/-- One attempt of the original-format pattern at a fixed position. -/
def tryAtOrig (s : Str) : Option (Str × Str) :=
  match schemeSplit s with
  | none => none
  | some (sch, r0) =>
    let host := r0.takeWhile fun c => c ≠ '/'
    let r1 := r0.dropWhile fun c => c ≠ '/'
    if host.isEmpty then none else
    match stripCertSeg r1 with
    | none => none
    | some (certSeg, r2) =>
      let ds := r2.takeWhile Char.isDigit
      let r3 := r2.dropWhile Char.isDigit
      if ds.isEmpty then none else
      match r3 with
      | [] => none
      | c3 :: r4 =>
        if c3 = '/' then
          match fnameMatch r4 with
          | none => none
          | some g3 => some (sch ++ host ++ certSeg ++ ds, g3)
        else none

/-- `re.search` of the sized pattern: leftmost position whose attempt succeeds. -/
def searchWS : Str → Option (Str × Str)
  | [] => none
  | s@(_ :: cs) =>
    match tryAtWS s with
    | some g => some g
    | none => searchWS cs

/-- `re.search` of the original-format pattern. -/
def searchOrig : Str → Option (Str × Str)
  | [] => none
  | s@(_ :: cs) =>
    match tryAtOrig s with
    | some g => some g
    | none => searchOrig cs

/-- Python `s.strip('\\/')` (both ends). -/
def stripSlashBSBoth (s : Str) : Str :=
  rstripSlashBS (s.dropWhile fun c => c == '\\' || c == '/')

/-- Rebuild the URL from group 1 and the (stripped) filename group for the
requested target size; `none` when `target_size` is not one of the four
recognized names (the source then falls through without returning). -/
def sizeBuild (base_path filename target_size : Str) : Option Str :=
  if target_size == strL "original" then some (base_path ++ strL "/" ++ filename)
  else if target_size == strL "large" then some (base_path ++ strL "/large/" ++ filename)
  else if target_size == strL "medium" then some (base_path ++ strL "/medium/" ++ filename)
  else if target_size == strL "small" then some (base_path ++ strL "/small/" ++ filename)
  else none

def convertToSize (url target_size : Str) : Option Str :=
  let u := pyStrip (rstripSlashBS url)
  let first :=
    match searchWS u with
    | some (base_path, g3) => sizeBuild base_path (stripSlashBSBoth g3) target_size
    | none => none
  match first with
  | some r => some r
  | none =>
    match searchOrig u with
    | some (base_path, g3) => sizeBuild base_path (stripSlashBSBoth g3) target_size
    | none => none

/-! ### Download-mode URL conversion in `get_high_res_images` (lines 875-1052)

For `preview_mode=False`, every discovered URL is cleaned and, when it
carries a `/small/`, `/large/` or `/medium/` segment, converted to the
original format by `_convert_to_size(url, 'original')`, falling back to
`re.sub(r'/(?:small|large|medium)/', '/', url)` (single left-to-right pass,
each match consumed whole) if the converter returns `None` (lines 938-956).
The `image_size` parameter of `get_high_res_images` is never read on this
path: the download branch always targets `'original'`, and the preview
branch always targets `'large'`. After conversion the list is scoped by
`_filter_images_by_cert` (the preview-only relaxations of lines 987-1034 do
not apply in download mode: when the filter returns an empty list the final
list stays empty, lines 1019-1021 and 1032-1034), then noise-filtered and
deduplicated. -/

def reSubSizes : Str → Str
  | '/' :: 's' :: 'm' :: 'a' :: 'l' :: 'l' :: '/' :: rest => '/' :: reSubSizes rest
  | '/' :: 'l' :: 'a' :: 'r' :: 'g' :: 'e' :: '/' :: rest => '/' :: reSubSizes rest
  | '/' :: 'm' :: 'e' :: 'd' :: 'i' :: 'u' :: 'm' :: '/' :: rest => '/' :: reSubSizes rest
  | c :: cs => c :: reSubSizes cs
  | [] => []

def convertDownloadOne (url : Str) : Str :=
  let url_clean := pyStrip (rstripSlashBS url)
  if containsStr url_clean (strL "/small/") ||
     containsStr url_clean (strL "/large/") ||
     containsStr url_clean (strL "/medium/") then
    match convertToSize url_clean (strL "original") with
    | some orig_url => orig_url
    | none => reSubSizes url_clean
  else url_clean

/-- `get_high_res_images` in download mode, applied to the candidate URLs the
discovery stage produced (page fetching and discovery are upstream of this
pure pipeline). The initial `_extract_cert_number` call is line 838. -/
def getHighResImagesDownload (cert_number : Str) (candidates : List Str) :
    Except Unit (List Str) := do
  let cert_num ← extractCertNumber cert_number
  let converted := candidates.map convertDownloadOne
  let final1 ← filterImagesByCert converted cert_num
  let final2 := filterUnnecessaryFiles final1
  pure (deduplicateByFilename final2)

/-- No `/small/`, `/large/` or `/medium/` path segment. -/
def sizeFree (s : Str) : Bool :=
  !(containsStr s (strL "/small/") || containsStr s (strL "/large/") ||
    containsStr s (strL "/medium/"))

/-! ### Structured CDN URLs

The spec's "recognized CDN shape": `scheme://host/cert/<digits>/<filename>.<ext>`
with an optional tier segment before the filename. `wfB` states the
well-formedness the shape implies: nonempty host without `/`, nonempty digit
run, nonempty filename over the regex's `[^/?\\]` class (dots are excluded so
that `<filename>.<ext>` splits unambiguously). -/

inductive ImgExt | jpg | jpeg | png | webp
deriving DecidableEq

def ImgExt.str : ImgExt → Str
  | .jpg => strL "jpg"
  | .jpeg => strL "jpeg"
  | .png => strL "png"
  | .webp => strL "webp"

inductive SizeTier | original | large | medium | small
deriving DecidableEq

/-- The `target_size` strings accepted by `_convert_to_size`. -/
def SizeTier.str : SizeTier → Str
  | .original => strL "original"
  | .large => strL "large"
  | .medium => strL "medium"
  | .small => strL "small"

/-- The path fragment between the certificate number and the filename. -/
def SizeTier.seg : SizeTier → Str
  | .original => strL "/"
  | .large => strL "/large/"
  | .medium => strL "/medium/"
  | .small => strL "/small/"

structure CdnUrl where
  secure : Bool
  host : Str
  cert : Str
  tier : SizeTier
  fname : Str
  ext : ImgExt

def CdnUrl.base (u : CdnUrl) : Str :=
  (if u.secure then strL "https://" else strL "http://") ++
    u.host ++ strL "/cert/" ++ u.cert

def CdnUrl.fnameExt (u : CdnUrl) : Str := u.fname ++ '.' :: u.ext.str

def CdnUrl.render (u : CdnUrl) : Str := u.base ++ u.tier.seg ++ u.fnameExt

def CdnUrl.wfB (u : CdnUrl) : Bool :=
  !u.host.isEmpty && u.host.all (fun c => !(c == '/')) &&
  !u.cert.isEmpty && u.cert.all Char.isDigit &&
  !u.fname.isEmpty &&
  u.fname.all (fun c => !(c == '/' || c == '?' || c == '\\' || c == '.'))

def CdnUrl.setTier (u : CdnUrl) (t : SizeTier) : CdnUrl := { u with tier := t }

/-! ### Proxy handling in `_get_page_html` (lines 115-273)

`tried_without_proxy` is a **local** variable of `_get_page_html` (line 116),
initialized to `False` on every call; the instance field
`self._current_proxies` is what requests actually use when the flag is not
set (line 139). The model replays one call of `_get_page_html` and records
every page request it issues together with the proxy setting used.

Oracles stand in for the environment: `script` supplies each request's
outcome in order (a dead default of a transient connection error is used if
it runs out); `rots` supplies, for each `_maybe_rotate_identity` call, the
proxy value the random rotation leaves in `self._current_proxies` (when the
proxy pool is empty, rotation always clears it, lines 1194-1195; leaving the
value unchanged is represented by supplying the current value). The
base-URL/page-URL nesting is flattened to `slots` identical URL slots, each
running the 3-attempt retry loop; the flag and proxy state thread through
slots exactly as in the source, since the flag's scope is the whole call. -/

inductive ReqOutcome where
  | ok (html : Str)
  | proxyErr
  | sslErr
  | connErr (refused : Bool)
  | httpErr (status : Nat)
deriving DecidableEq

structure Req where
  proxy : Option Str
  outcome : ReqOutcome
  /-- `true` for the inline fallback requests issued *inside* an exception
  handler (the no-proxy retry of the `ProxyError` and connection-refused
  handlers, and the verification-disabled retry of the SSL handler); their
  failures are caught by broad `except Exception` clauses (lines 172, 210,
  238), so a `ProxyError` raised there is *not* seen by the `ProxyError`
  handler and does not set `tried_without_proxy`. -/
  sub : Bool
deriving DecidableEq

structure ProxyCfg where
  pool : List Str
  verify_ssl : Bool

structure AttState where
  trace : List Req
  flag : Bool
  cur : Option Str
  script : List ReqOutcome
  rots : List (Option Str)

inductive AttOut | success (html : Str) | cont | brk

def popOutcome : List ReqOutcome → ReqOutcome × List ReqOutcome
  | [] => (.connErr false, [])
  | o :: r => (o, r)

def popRot : List (Option Str) → Option Str × List (Option Str)
  | [] => (none, [])
  | v :: r => (v, r)

/-- Effect of `_maybe_rotate_identity` on `self._current_proxies`
(lines 1184-1195): with an empty pool it is always cleared; otherwise the
oracle supplies the value the random draw produces. -/
def rotateSt (cfg : ProxyCfg) (st : AttState) : AttState :=
  let (v, rots') := popRot st.rots
  { st with cur := if cfg.pool.isEmpty then none else v, rots := rots' }

/-- Issue one page GET: record the proxy setting actually passed
(`None if tried_without_proxy else self._current_proxies`, line 139) and
consume the scripted outcome. -/
def doGet (proxy : Option Str) (sub : Bool) (st : AttState) :
    ReqOutcome × AttState :=
  let (o, script') := popOutcome st.script
  (o, { st with trace := st.trace ++ [⟨proxy, o, sub⟩], script := script' })

/-- One iteration of the attempt loop (lines 133-273). -/
def attempt1 (cfg : ProxyCfg) (st : AttState) : AttState × AttOut :=
  let proxies_to_use := if st.flag then none else st.cur
  let (o, st) := doGet proxies_to_use false st
  match o with
  | .ok html => (st, .success html)
  | .proxyErr =>
    if !st.flag then
      let st := { st with flag := true }
      let (o2, st) := doGet none true st
      match o2 with
      | .ok html => (st, .success html)
      | _ => (st, .cont)
    else (st, .cont)
  | .sslErr =>
    if cfg.verify_ssl then
      let st := rotateSt cfg st
      let proxies_for_ssl := if st.flag then none else st.cur
      let (o2, st) := doGet proxies_for_ssl true st
      match o2 with
      | .ok html => (st, .success html)
      | _ => (st, .brk)
    else (st, .brk)
  | .connErr refused =>
    if !st.flag && !(st.cur == none) && refused then
      let st := { st with flag := true }
      let (o2, st) := doGet none true st
      match o2 with
      | .ok html => (st, .success html)
      | _ => (st, .cont)
    else (st, .cont)
  | .httpErr status =>
    if status == 429 || status == 403 then
      (rotateSt cfg st, .cont)
    else (st, .cont)

/-- The `for attempt in range(self.max_retries)` loop; `_maybe_rotate_identity`
is called before every attempt but the first (lines 136-137). -/
def attemptLoop (cfg : ProxyCfg) : Nat → Bool → AttState → AttState × Option Str
  | 0, _, st => (st, none)
  | k + 1, isFirst, st =>
    let st := if isFirst then st else rotateSt cfg st
    match attempt1 cfg st with
    | (st', .success h) => (st', some h)
    | (st', .cont) => attemptLoop cfg k false st'
    | (st', .brk) => (st', none)

/-- The flattened URL loop: each slot gets a fresh 3-attempt loop; the first
success short-circuits the call. -/
def urlSlots (cfg : ProxyCfg) : Nat → AttState → AttState × Option Str
  | 0, st => (st, none)
  | n + 1, st =>
    match attemptLoop cfg 3 true st with
    | (st', some h) => (st', some h)
    | (st', none) => urlSlots cfg n st'

/-- One call of `_get_page_html`: request trace, the `self._current_proxies`
value after the call, and the returned markup (`none` = the aggregated
failure raise). `tried_without_proxy` starts at `False` (line 116). -/
def getPageProxyCall (cfg : ProxyCfg) (cur0 : Option Str)
    (script : List ReqOutcome) (rots : List (Option Str)) (slots : Nat) :
    List Req × Option Str × Option Str :=
  let (st, r) := urlSlots cfg slots ⟨[], false, cur0, script, rots⟩
  (st.trace, st.cur, r)

def isPE (o : ReqOutcome) : Bool :=
  match o with
  | .proxyErr => true
  | _ => false

def allNoneB (t : List Req) : Bool := t.all fun q => q.proxy == none

/-- A request whose failure the `ProxyError` handler of line 152 observes:
a proxy error on a primary attempt request (not on one of the inline
handler sub-requests). -/
def isTrigger (r : Req) : Bool := isPE r.outcome && !r.sub

def hasTrigB (t : List Req) : Bool := t.any isTrigger

/-- After any proxy error observed by the `ProxyError` handler, every later
request of the call was sent without a proxy. -/
def goodB : List Req → Bool
  | [] => true
  | r :: t => (!isTrigger r || allNoneB t) && goodB t

/-! ## Lemmas: basic string machinery -/

theorem strStarts_iff_isPrefix : ∀ s p : Str, strStarts s p = true ↔ p <+: s := by
  intro s p
  induction p generalizing s with
  | nil => simp [strStarts]
  | cons c cs ih =>
    cases s with
    | nil => simp [strStarts]
    | cons a as =>
      simp only [strStarts, Bool.and_eq_true, beq_iff_eq, ih, List.cons_prefix_cons]
      exact ⟨fun ⟨h1, h2⟩ => ⟨h1.symm, h2⟩, fun ⟨h1, h2⟩ => ⟨h1.symm, h2⟩⟩

theorem containsStr_infix_iff : ∀ s p : Str, containsStr s p = true ↔ p <:+: s := by
  intro s p
  induction s with
  | nil =>
    simp only [containsStr, strStarts_iff_isPrefix, List.infix_nil, List.prefix_nil]
  | cons c cs ih =>
    simp only [containsStr, Bool.or_eq_true, strStarts_iff_isPrefix, ih,
      List.infix_cons_iff]

/-- The cleaning steps only remove characters at the ends, so a cleaned URL
is an infix of the original. -/
theorem rstripChars_suffix_rev (p : Char → Bool) (s : Str) : rstripChars p s <+: s := by
  have h := List.dropWhile_suffix (l := s.reverse) p
  rw [← List.reverse_prefix] at h
  simpa [rstripChars] using h

theorem pyStrip_infix_self (s : Str) : pyStrip s <:+: s := by
  have h1 : pyStrip s <+: s.dropWhile isPySpace := rstripChars_suffix_rev _ _
  exact h1.isInfix.trans (List.dropWhile_suffix isPySpace).isInfix

theorem cleanUrl_infix_self (s : Str) : pyStrip (rstripSlashBS s) <:+: s :=
  (pyStrip_infix_self _).trans (rstripChars_suffix_rev _ s).isInfix

theorem containsStr_mono {s t w : Str} (hst : s <:+: t)
    (h : containsStr s w = true) : containsStr t w = true := by
  rw [containsStr_infix_iff] at h ⊢
  exact h.trans hst

/-! ## C3: `_extract_cert_number` -/
/-! ## C3: `_extract_cert_number` -/

deriving instance DecidableEq for Except

/-- C3. Identifier normalization returns exactly the input with all
non-digit characters removed, and fails precisely when no digit is present;
`"PSA# 96,098,359"` normalizes to `"96098359"` and `"abc"` fails. -/
theorem extract_cert_number_spec :
    (∀ s : Str,
      (extractCertNumber s = .ok (s.filter Char.isDigit) ↔ s.any Char.isDigit = true) ∧
      (extractCertNumber s = .error () ↔ s.any Char.isDigit = false)) ∧
    extractCertNumber (strL "PSA# 96,098,359") = .ok (strL "96098359") ∧
    extractCertNumber (strL "abc") = .error () := by
  refine ⟨fun s => ?_, by decide, by decide⟩
  have hiff : (s.filter Char.isDigit).isEmpty = true ↔ s.any Char.isDigit = false := by
    simp [List.isEmpty_iff, List.filter_eq_nil_iff, List.any_eq_false]
  by_cases h : (s.filter Char.isDigit).isEmpty = true
  · have hany := hiff.mp h
    exact ⟨by simp [extractCertNumber, h, hany], by simp [extractCertNumber, h, hany]⟩
  · have hany : s.any Char.isDigit = true := by
      rcases Bool.eq_false_or_eq_true (s.any Char.isDigit) with h' | h'
      · exact h'
      · exact absurd (hiff.mpr h') h
    exact ⟨by simp [extractCertNumber, h, hany], by simp [extractCertNumber, h, hany]⟩

/-! ## C2: `_filter_images_by_cert` scoping -/

theorem keepUrl_first_cert {cert_num url j : Str}
    (hk : keepUrlForCert cert_num url = true)
    (hf : findCertNum (pyStrip url) = some j) : j = cert_num := by
  simp only [keepUrlForCert, hf] at hk
  exact eq_of_beq hk

/-- C2 (amended). Every URL retained by the certificate scoping filter
either contains no `/cert/<digits>` occurrence at all, or its *first*
`/cert/<digits>` occurrence carries exactly the normalized requested number.
(The claim as stated — no retained URL carries *any* `/cert/<j>` with
`j ≠ i` — fails when a URL carries several `/cert/` segments; see the
counterexample.) -/
theorem scope_filter_first_cert_matches :
    ∀ (urls : List Str) (cert : Str) (out : List Str),
      filterImagesByCert urls cert = .ok out →
      ∀ u ∈ out, ∀ j, findCertNum (pyStrip u) = some j →
        j = cert.filter Char.isDigit := by
  intro urls cert out hok u hu j hj
  unfold filterImagesByCert at hok
  by_cases hne : urls.isEmpty = true
  · rw [if_pos hne] at hok
    injection hok with h
    subst h
    exact absurd hu (List.not_mem_nil u)
  · rw [if_neg hne] at hok
    unfold extractCertNumber at hok
    by_cases hempty : (cert.filter Char.isDigit).isEmpty = true
    · rw [if_pos hempty] at hok
      exact absurd hok (by simp [Except.map])
    · rw [if_neg hempty] at hok
      simp only [Except.map] at hok
      injection hok with h
      subst h
      have hmem := (List.mem_filter.mp hu).2
      have hkeep : keepUrlForCert (cert.filter Char.isDigit) u = true :=
        (Bool.and_eq_true _ _ |>.mp hmem).2
      exact keepUrl_first_cert hkeep hj

def c2url : Str := strL "https://h/cert/11/a/cert/22/f.jpg"

/-- C2 (counterexample). A URL that carries `/cert/11` first and `/cert/22`
later is retained by the filter for certificate `11`, although its path
carries the different certificate number `22` — refuting "every candidate
whose path contains a different certificate number is dropped". -/
theorem scope_filter_counterexample :
    filterImagesByCert [c2url] (strL "11") = .ok [c2url] ∧
    strL "22" ∈ certNumsIn c2url ∧ (strL "22" ≠ strL "11") := by
  refine ⟨by rfl, by decide, by decide⟩

theorem scope_filter_first_cert_matches_witness :
    strL "11" = (strL "PSA 11").filter Char.isDigit :=
  scope_filter_first_cert_matches [strL "https://h/cert/11/f.jpg"] (strL "PSA 11")
    [strL "https://h/cert/11/f.jpg"] (by rfl)
    (strL "https://h/cert/11/f.jpg") (by decide) (strL "11") (by rfl)

/-! ## C6: `_filter_unnecessary_files` -/

/-- C6 (counterexample). The URL `https://h/logo/front.jpg` has the denylist
keyword `logo` in its path but not in its filename, and it is *not* dropped —
refuting "a URL whose path, but not filename, contains such a keyword is also
dropped". -/
theorem noise_filter_counterexample :
    filterUnnecessaryFiles [strL "https://h/logo/front.jpg"] =
      [strL "https://h/logo/front.jpg"] ∧
    containsStr (lowerStr (urlPath (strL "https://h/logo/front.jpg")))
      (strL "logo") = true ∧
    excludedFile (strL "https://h/logo/front.jpg") = false := by
  refine ⟨by rfl, by rfl, by rfl⟩

theorem mem_filterUnnecessaryFiles (urls : List Str) (u : Str) :
    u ∈ filterUnnecessaryFiles urls ↔ u ∈ urls ∧ excludedFile u = false := by
  simp [filterUnnecessaryFiles, List.mem_filter]

/-- C6 (amended). The noise filter drops exactly the URLs whose lowercased
derived *filename* contains a denylist keyword; keywords occurring only in
other path components do not cause a drop. -/
theorem noise_filter_filename_only :
    ∀ (urls : List Str) (u : Str),
      u ∈ filterUnnecessaryFiles urls ↔ u ∈ urls ∧ excludedFile u = false := by
  intro urls u
  exact mem_filterUnnecessaryFiles urls u

/-! ## C7: the composed clean step -/

theorem dedup_subset : ∀ (seen l : List Str) (u : Str),
    u ∈ dedupFilename' seen l → u ∈ l := by
  intro seen l
  induction l generalizing seen with
  | nil => intro u h; exact absurd h (List.not_mem_nil u)
  | cons x rest ih =>
    intro u h
    unfold dedupFilename' at h
    by_cases h1 : !(validFilename (derivedFilename x))
    · rw [if_pos h1] at h
      rcases List.mem_cons.mp h with h' | h'
      · exact h' ▸ List.mem_cons_self x rest
      · exact List.mem_cons_of_mem x (ih seen u h')
    · rw [if_neg h1] at h
      by_cases h2 : seen.contains (derivedFilename x)
      · rw [if_pos h2] at h
        exact List.mem_cons_of_mem x (ih seen u h)
      · rw [if_neg h2] at h
        rcases List.mem_cons.mp h with h' | h'
        · exact h' ▸ List.mem_cons_self x rest
        · exact List.mem_cons_of_mem x (ih _ u h')

theorem dedup_fresh : ∀ (seen l : List Str) (u : Str),
    u ∈ dedupFilename' seen l → validFilename (derivedFilename u) = true →
    ¬ seen.contains (derivedFilename u) = true := by
  intro seen l
  induction l generalizing seen with
  | nil => intro u h; exact absurd h (List.not_mem_nil u)
  | cons x rest ih =>
    intro u h hv
    unfold dedupFilename' at h
    by_cases h1 : !(validFilename (derivedFilename x))
    · rw [if_pos h1] at h
      rcases List.mem_cons.mp h with h' | h'
      · subst h'
        rw [hv] at h1
        simp at h1
      · exact ih seen u h' hv
    · rw [if_neg h1] at h
      by_cases h2 : seen.contains (derivedFilename x)
      · rw [if_pos h2] at h
        exact ih seen u h hv
      · rw [if_neg h2] at h
        rcases List.mem_cons.mp h with h' | h'
        · subst h'
          exact h2
        · intro hc
          have := ih _ u h' hv
          exact this (by
            simp only [List.contains_cons, Bool.or_eq_true]
            exact Or.inr hc)

theorem dedup_pairwise : ∀ (seen l : List Str),
    (dedupFilename' seen l).Pairwise
      (fun a b => validFilename (derivedFilename a) = true →
        derivedFilename a ≠ derivedFilename b) := by
  intro seen l
  induction l generalizing seen with
  | nil => exact List.Pairwise.nil
  | cons x rest ih =>
    unfold dedupFilename'
    by_cases h1 : !(validFilename (derivedFilename x))
    · rw [if_pos h1]
      refine List.Pairwise.cons ?_ (ih seen)
      intro b _ hv
      rw [hv] at h1
      simp at h1
    · rw [if_neg h1]
      by_cases h2 : seen.contains (derivedFilename x)
      · rw [if_pos h2]
        exact ih seen
      · rw [if_neg h2]
        refine List.Pairwise.cons ?_ (ih _)
        intro b hb hv heq
        have hvb : validFilename (derivedFilename b) = true := heq ▸ hv
        have := dedup_fresh _ _ _ hb hvb
        exact this (by
          simp only [List.contains_cons, Bool.or_eq_true]
          exact Or.inl (by rw [← heq]; exact beq_self_eq_true _))

theorem dedup_first : ∀ (seen l : List Str) (fn : Str) (v : Str),
    validFilename fn = true → ¬ seen.contains fn = true →
    (l.filter fun u => derivedFilename u == fn).head? = some v →
    v ∈ dedupFilename' seen l := by
  intro seen l
  induction l generalizing seen with
  | nil => intro fn v _ _ h; simp at h
  | cons x rest ih =>
    intro fn v hv hfresh hh
    unfold dedupFilename'
    by_cases hx : derivedFilename x = fn
    · have hxb : (derivedFilename x == fn) = true := by rw [hx]; exact beq_self_eq_true _
      simp only [List.filter_cons, hxb, if_true] at hh
      simp only [List.head?_cons, Option.some_inj] at hh
      subst hh
      rw [hx, hv]
      simp only [Bool.not_true, Bool.false_eq_true, if_false]
      rw [if_neg hfresh]
      exact List.mem_cons_self x _
    · have hxb : (derivedFilename x == fn) = false := by
        simpa using hx
      simp only [List.filter_cons, hxb, Bool.false_eq_true, if_false] at hh
      by_cases h1 : !(validFilename (derivedFilename x))
      · rw [if_pos h1]
        exact List.mem_cons_of_mem x (ih seen fn v hv hfresh hh)
      · rw [if_neg h1]
        by_cases h2 : seen.contains (derivedFilename x)
        · rw [if_pos h2]
          exact ih seen fn v hv hfresh hh
        · rw [if_neg h2]
          refine List.mem_cons_of_mem x (ih _ fn v hv ?_ hh)
          intro hc
          simp only [List.contains_cons, Bool.or_eq_true] at hc
          rcases hc with hc | hc
          · exact hx (eq_of_beq hc).symm
          · exact hfresh hc

/-- C7 (amended). The composed clean step never keeps a URL whose filename
matches the denylist; among URLs with a *usable* derived filename (nonempty,
containing a dot) no two output entries share a filename, and the kept one
is the first survivor of the noise filter carrying it. URLs whose derived
filename is empty or dotless are exempt from deduplication (line 678-680)
and may repeat — see the counterexample. -/
theorem clean_spec :
    ∀ urls : List Str,
      (∀ u ∈ cleanUrls urls, excludedFile u = false) ∧
      (cleanUrls urls).Pairwise
        (fun a b => validFilename (derivedFilename a) = true →
          derivedFilename a ≠ derivedFilename b) ∧
      (∀ (fn : Str) (v : Str), validFilename fn = true →
        ((filterUnnecessaryFiles urls).filter
            fun u => derivedFilename u == fn).head? = some v →
        v ∈ cleanUrls urls) := by
  intro urls
  refine ⟨?_, dedup_pairwise [] _, ?_⟩
  · intro u hu
    have hmem : u ∈ filterUnnecessaryFiles urls := dedup_subset [] _ u hu
    exact ((mem_filterUnnecessaryFiles urls u).mp hmem).2
  · intro fn v hv hh
    exact dedup_first [] _ fn v hv (by simp [List.contains]) hh

/-- C7 (counterexample). Two URLs with the same dotless derived filename `x`
both survive the clean step, so the output *does* contain two entries with
the same derived filename — refuting the unconditional dedup claim. -/
theorem clean_counterexample :
    cleanUrls [strL "http://a/x", strL "http://b/x"] =
      [strL "http://a/x", strL "http://b/x"] ∧
    derivedFilename (strL "http://a/x") = derivedFilename (strL "http://b/x") ∧
    (strL "http://a/x" ≠ strL "http://b/x") := by
  refine ⟨by rfl, by rfl, by decide⟩

theorem clean_spec_witness :
    strL "http://a/f.jpg" ∈ cleanUrls [strL "http://a/f.jpg", strL "http://b/f.jpg"] :=
  (clean_spec [strL "http://a/f.jpg", strL "http://b/f.jpg"]).2.2
    (strL "f.jpg") (strL "http://a/f.jpg") (by rfl) (by rfl)

/-! ## C5: hint-attribute acceptance in `_find_image_urls` -/

theorem hintStep_pred (base : Str) (img : ImgTag) (acc : List Str) (attr : Str)
    (hacc : ∀ y ∈ acc, isHighResImage y = true) :
    ∀ y ∈ hintStep base img acc attr, isHighResImage y = true := by
  intro y hy
  unfold hintStep at hy
  cases hget : imgGet img attr with
  | none => rw [hget] at hy; exact hacc y hy
  | some url =>
    rw [hget] at hy
    simp only [] at hy
    by_cases hemp : url.isEmpty = true
    · rw [if_pos hemp] at hy
      exact hacc y hy
    · rw [if_neg hemp] at hy
      by_cases hcond : (!acc.contains (urljoinM base url) &&
          isHighResImage (urljoinM base url)) = true
      · rw [if_pos hcond] at hy
        rcases List.mem_append.mp hy with h' | h'
        · exact hacc y h'
        · have : y = urljoinM base url := by simpa using h'
          subst this
          exact (Bool.and_eq_true _ _ |>.mp hcond).2
      · rw [if_neg hcond] at hy
        exact hacc y hy

theorem hintPassImg_pred (base : Str) (img : ImgTag) (acc : List Str)
    (hacc : ∀ y ∈ acc, isHighResImage y = true) :
    ∀ y ∈ hintPassImg base acc img, isHighResImage y = true := by
  unfold hintPassImg
  generalize highResHintAttrs = attrs
  induction attrs generalizing acc with
  | nil => exact hacc
  | cons a rest ih =>
    exact ih _ (hintStep_pred base img acc a hacc)

/-- C5 (amended). A URL taken from a high-resolution hint attribute enters
the strategy-1 candidate list only after passing the `_is_high_res_image`
predicate: acceptance is *not* unconditional (line 338 guards the append).
Hence every candidate produced by the hint-attribute pass satisfies the
predicate. -/
theorem hint_attr_requires_predicate :
    ∀ (base : Str) (imgs : List ImgTag) (u : Str),
      u ∈ findImageUrlsStrategy1 base imgs → isHighResImage u = true := by
  intro base imgs
  unfold findImageUrlsStrategy1
  have main : ∀ (l : List ImgTag) (acc : List Str),
      (∀ y ∈ acc, isHighResImage y = true) →
      ∀ y ∈ l.foldl (hintPassImg base) acc, isHighResImage y = true := by
    intro l
    induction l with
    | nil => intro acc hacc; exact hacc
    | cons img rest ih =>
      intro acc hacc
      exact ih _ (hintPassImg_pred base img acc hacc)
  intro u hu
  exact main imgs [] (by intro y hy; exact absurd hy (List.not_mem_nil y)) u hu

def c5img : ImgTag := ⟨[(strL "data-highres", strL "https://h/logo.jpg")]⟩

/-- C5 (counterexample). An image element carrying the hint attribute
`data-highres="https://h/logo.jpg"` contributes *nothing* to the strategy-1
candidate list, because the URL fails `_is_high_res_image` (it contains
`logo`) — refuting "accepted unconditionally ... without any further
predicate being applied". -/
theorem hint_attr_counterexample :
    imgGet c5img (strL "data-highres") = some (strL "https://h/logo.jpg") ∧
    isHighResImage (strL "https://h/logo.jpg") = false ∧
    findImageUrlsStrategy1 (strL "https://www.psacard.com/cert") [c5img] = [] := by
  refine ⟨by rfl, by rfl, by rfl⟩

theorem hint_attr_requires_predicate_witness :
    isHighResImage (strL "https://h/cert/1/f.jpg") = true :=
  hint_attr_requires_predicate (strL "https://www.psacard.com/cert")
    [⟨[(strL "data-highres", strL "https://h/cert/1/f.jpg")]⟩]
    (strL "https://h/cert/1/f.jpg") (by decide)

/-! ## C8: endpoint preference of `_get_page_html` -/

theorem tryBases_spec : ∀ (bases : List Str) (cert : Str)
    (fetch : Str → Option Str) (st' : FetchState) (html : Str),
    tryBases cert fetch bases = some (st', html) →
    ∃ pre post, bases = pre ++ st'.base_url :: post ∧
      (∀ b ∈ pre, (pageUrlsFor b cert).findSome? fetch = none) ∧
      (pageUrlsFor st'.base_url cert).findSome? fetch = some html := by
  intro bases
  induction bases with
  | nil => intro cert fetch st' html h; exact absurd h (by simp [tryBases])
  | cons b rest ih =>
    intro cert fetch st' html h
    unfold tryBases at h
    cases hfs : (pageUrlsFor b cert).findSome? fetch with
    | some h0 =>
      rw [hfs] at h
      injection h with h1
      injection h1 with h2 h3
      subst h3
      refine ⟨[], rest, ?_, by intro x hx; exact absurd hx (List.not_mem_nil x), ?_⟩
      · rw [← h2]; rfl
      · rw [← h2]; exact hfs

    | none =>
      rw [hfs] at h
      obtain ⟨pre, post, heq, hpre, hsucc⟩ := ih cert fetch st' html h
      refine ⟨b :: pre, post, by rw [heq]; rfl, ?_, hsucc⟩
      intro x hx
      rcases List.mem_cons.mp hx with h' | h'
      · exact h' ▸ hfs
      · exact hpre x h'

/-- C8. When a page fetch succeeds, the endpoint bases were tried in the
order "preferred endpoint, then the remaining configured backups in order";
the first base with a successful page request wins, the returned markup is
that response, the preferred endpoint is updated to the winning base, and
the next call's order therefore starts with that base followed by the
remaining backups. -/
theorem fetcher_prefers_last_success :
    ∀ (st : FetchState) (cert : Str) (fetch : Str → Option Str)
      (st' : FetchState) (html : Str),
      getPageHtml st cert fetch = some (st', html) →
      (urlsToTry st = st.base_url :: backupUrls.filter (fun u => !(u == st.base_url))) ∧
      (∃ pre post, urlsToTry st = pre ++ st'.base_url :: post ∧
        (∀ b ∈ pre, (pageUrlsFor b cert).findSome? fetch = none) ∧
        (pageUrlsFor st'.base_url cert).findSome? fetch = some html) ∧
      urlsToTry st' = st'.base_url :: backupUrls.filter (fun u => !(u == st'.base_url)) ∧
      (urlsToTry st').head? = some st'.base_url := by
  intro st cert fetch st' html h
  exact ⟨rfl, tryBases_spec _ cert fetch st' html h, rfl, rfl⟩

def c8fetch : Str → Option Str := fun u =>
  if u == strL "https://www.psacard.co.jp/cert/123" then some (strL "MIRROR") else none

theorem fetcher_prefers_last_success_witness :
    (urlsToTry ⟨strL "https://www.psacard.co.jp/cert"⟩).head? =
      some (strL "https://www.psacard.co.jp/cert") :=
  (fetcher_prefers_last_success ⟨strL "https://www.psacard.com/cert"⟩ (strL "123")
    c8fetch ⟨strL "https://www.psacard.co.jp/cert"⟩ (strL "MIRROR") (by rfl)).2.2.2

/-! ## C1: `_convert_to_size` — parser lemmas -/

theorem takeWhile_append_all {p : Char → Bool} :
    ∀ (a b : Str), (∀ x ∈ a, p x = true) →
      (a ++ b).takeWhile p = a ++ b.takeWhile p := by
  intro a b h
  induction a with
  | nil => rfl
  | cons c cs ih =>
    have hc : p c = true := h c (List.mem_cons_self c cs)
    simp only [List.cons_append, List.takeWhile_cons, hc, if_true]
    rw [ih fun x hx => h x (List.mem_cons_of_mem c hx)]

theorem dropWhile_append_all {p : Char → Bool} :
    ∀ (a b : Str), (∀ x ∈ a, p x = true) →
      (a ++ b).dropWhile p = b.dropWhile p := by
  intro a b h
  induction a with
  | nil => rfl
  | cons c cs ih =>
    have hc : p c = true := h c (List.mem_cons_self c cs)
    simp only [List.cons_append, List.dropWhile_cons, hc, if_true]
    exact ih fun x hx => h x (List.mem_cons_of_mem c hx)

theorem takeWhile_cons_neg {p : Char → Bool} {c : Char} (r : Str)
    (h : p c = false) : (c :: r).takeWhile p = [] := by
  simp [List.takeWhile_cons, h]

theorem dropWhile_cons_neg {p : Char → Bool} {c : Char} (r : Str)
    (h : p c = false) : (c :: r).dropWhile p = c :: r := by
  simp [List.dropWhile_cons, h]

theorem rstripChars_snoc {p : Char → Bool} (a : Str) {c : Char}
    (h : p c = false) : rstripChars p (a ++ [c]) = a ++ [c] := by
  unfold rstripChars
  rw [List.reverse_append]
  simp only [List.reverse_cons, List.reverse_nil, List.nil_append, List.cons_append,
    List.nil_append]
  rw [dropWhile_cons_neg _ h]
  simp

theorem stripPrefCI_self : ∀ (p r : Str), stripPrefCI p (p ++ r) = some (p, r) := by
  intro p
  induction p with
  | nil => intro r; rfl
  | cons c cs ih =>
    intro r
    simp only [List.cons_append, stripPrefCI]
    have hcc : ciEq c c = true := by simp [ciEq]
    rw [if_pos hcc]
    simp only [List.append_eq]
    rw [ih r]

theorem stripPrefCI_split : ∀ (p s co r : Str),
    stripPrefCI p s = some (co, r) → s = co ++ r := by
  intro p
  induction p with
  | nil =>
    intro s co r h
    simp only [stripPrefCI, Option.some_inj] at h
    injection h with h1 h2
    rw [← h1, ← h2]
    rfl
  | cons c cs ih =>
    intro s co r h
    cases s with
    | nil => exact absurd h (by simp [stripPrefCI])
    | cons a as =>
      simp only [stripPrefCI] at h
      by_cases hci : ciEq a c = true
      · rw [if_pos hci] at h
        cases hrec : stripPrefCI cs as with
        | none => rw [hrec] at h; exact absurd h (by simp)
        | some pr =>
          rw [hrec] at h
          obtain ⟨co', r'⟩ := pr
          simp only [Option.some_inj] at h
          injection h with h1 h2
          rw [← h1, ← h2]
          have := ih as co' r' hrec
          rw [this]
          rfl
      · rw [if_neg hci] at h
        exact absurd h (by simp)

theorem altFirst_split : ∀ (ws : List Str) (s co r : Str),
    altFirst ws s = some (co, r) → s = co ++ r := by
  intro ws
  induction ws with
  | nil => intro s co r h; exact absurd h (by simp [altFirst])
  | cons w rest ih =>
    intro s co r h
    unfold altFirst at h
    cases hw : stripPrefCI w s with
    | some pr =>
      obtain ⟨co', r'⟩ := pr
      rw [hw] at h
      simp only [Option.some_inj, Prod.mk.injEq] at h
      obtain ⟨h1, h2⟩ := h
      subst h1; subst h2
      exact stripPrefCI_split w s _ _ hw
    | none =>
      rw [hw] at h
      exact ih s co r h

theorem altFirst_rest_mem {ws : List Str} {s co r : Str}
    (h : altFirst ws s = some (co, r)) : ∀ x ∈ r, x ∈ s := by
  intro x hx
  rw [altFirst_split ws s co r h]
  exact List.mem_append.mpr (Or.inr hx)

theorem fnameBack_step {s : Str} {n : Nat}
    (h : (s.drop (n + 1)).head? ≠ some '.') :
    fnameBack s (n + 1) = fnameBack s n := by
  simp only [fnameBack]
  cases hdrop : s.drop (n + 1) with
  | nil => rfl
  | cons c r =>
    have hc : c ≠ '.' := by
      intro hc'
      rw [hdrop, hc'] at h
      exact h rfl
    split
    · rename_i r' heq
      injection heq with h1 h2
      exact absurd h1 hc
    · rfl

theorem fnameBack_hit {s : Str} {m : Nat} (hm : 0 < m) {tl : Str}
    (hdrop : s.drop m = '.' :: tl) {ew rest : Str}
    (halt : altFirst extWords tl = some (ew, rest)) :
    fnameBack s m = some (s.take m ++ '.' :: ew) := by
  obtain ⟨m', rfl⟩ : ∃ m', m = m' + 1 := ⟨m - 1, (Nat.succ_pred_eq_of_pos hm).symm⟩
  simp only [fnameBack]
  rw [hdrop]
  simp only []
  rw [halt]

theorem fnameBack_descend {s : Str} {m : Nat} :
    ∀ k : Nat, (∀ i, m < i → i ≤ m + k → (s.drop i).head? ≠ some '.') →
    fnameBack s (m + k) = fnameBack s m := by
  intro k
  induction k with
  | zero => intro _; rfl
  | succ k ih =>
    intro h
    have hstep : (s.drop (m + k + 1)).head? ≠ some '.' :=
      h (m + k + 1) (by omega) (by omega)
    calc fnameBack s (m + (k + 1)) = fnameBack s (m + k + 1) := by rw [Nat.add_succ]
    _ = fnameBack s (m + k) := fnameBack_step hstep
    _ = fnameBack s m := ih fun i h1 h2 => h i h1 (by omega)

theorem head_ne_dot_of_no_dot {l : Str} (h : ∀ c ∈ l, c ≠ '.') :
    ∀ d, (l.drop d).head? ≠ some '.' := by
  intro d hd
  cases hl : l.drop d with
  | nil => rw [hl] at hd; exact absurd hd (by simp)
  | cons c r =>
    rw [hl] at hd
    simp only [List.head?_cons, Option.some_inj] at hd
    have hcmem : c ∈ l := by
      have : c ∈ l.drop d := by rw [hl]; exact List.mem_cons_self c r
      exact List.mem_of_mem_drop this
    exact h c hcmem hd

theorem ext_no_dot (ext : ImgExt) : ∀ c ∈ ext.str, c ≠ '.' := by
  cases ext <;> decide

theorem ext_allowed (ext : ImgExt) : ∀ c ∈ ('.' :: ext.str), allowedF c = true := by
  cases ext <;> decide

theorem extAlt_self (ext : ImgExt) :
    altFirst extWords ext.str = some (ext.str, []) := by
  cases ext <;> rfl

theorem fnameMatch_fnameExt (fname : Str) (ext : ImgExt)
    (hne : fname ≠ []) (hall : ∀ c ∈ fname, allowedF c = true) :
    fnameMatch (fname ++ '.' :: ext.str) = some (fname ++ '.' :: ext.str) := by
  have hrun : (fname ++ '.' :: ext.str).takeWhile allowedF = fname ++ '.' :: ext.str := by
    refine List.takeWhile_eq_self_iff.mpr ?_
    intro x hx
    rcases List.mem_append.mp hx with h' | h'
    · exact hall x h'
    · exact ext_allowed ext x h'
  have hF : 0 < fname.length := List.length_pos.mpr hne
  unfold fnameMatch
  rw [hrun]
  simp only []
  have hempty : (fname ++ '.' :: ext.str).isEmpty = false := by
    cases fname with
    | nil => exact absurd rfl hne
    | cons a as => rfl
  rw [hempty]
  simp only [Bool.false_eq_true, if_false]
  have hlen : (fname ++ '.' :: ext.str).length = fname.length + (1 + ext.str.length) := by
    simp [List.length_append, List.length_cons]
    omega
  rw [hlen]
  have hdesc := fnameBack_descend (s := fname ++ '.' :: ext.str) (m := fname.length)
    (1 + ext.str.length) ?_
  · rw [hdesc]
    have hdrop : (fname ++ '.' :: ext.str).drop fname.length = '.' :: ext.str :=
      List.drop_left fname ('.' :: ext.str)
    rw [fnameBack_hit hF hdrop (extAlt_self ext)]
    rw [List.take_left fname ('.' :: ext.str)]
  · intro i h1 h2
    have hi : i = fname.length + (i - fname.length) := by omega
    rw [hi, List.drop_append]
    have hn : i - fname.length = (i - fname.length - 1) + 1 := by omega
    rw [hn]
    simp only [List.drop_succ_cons]
    exact head_ne_dot_of_no_dot (ext_no_dot ext) _

theorem tryAtWS_parse (secure : Bool) (host cert W : Str)
    (hh : host ≠ []) (hhs : ∀ c ∈ host, c ≠ '/')
    (hcd : ∀ c ∈ cert, Char.isDigit c = true) (hc : cert ≠ []) :
    tryAtWS ((if secure then strL "https://" else strL "http://") ++
        (host ++ (strL "/cert/" ++ (cert ++ ('/' :: W))))) =
      (match altFirst tierWords W with
      | none => none
      | some (_tw, r5) =>
        match r5 with
        | [] => none
        | c5 :: r6 =>
          if c5 = '/' then
            match fnameMatch r6 with
            | none => none
            | some g3 =>
              some ((if secure then strL "https://" else strL "http://") ++ host ++
                strL "/cert/" ++ cert, g3)
          else none) := by
  have hsch : schemeSplit ((if secure then strL "https://" else strL "http://") ++
      (host ++ (strL "/cert/" ++ (cert ++ ('/' :: W))))) =
      some ((if secure then strL "https://" else strL "http://"),
        host ++ (strL "/cert/" ++ (cert ++ ('/' :: W)))) := by
    cases secure
    · exact rfl
    · exact rfl
  unfold tryAtWS
  rw [hsch]
  simp only []
  have hcons : strL "/cert/" ++ (cert ++ ('/' :: W)) =
      '/' :: (strL "cert/" ++ (cert ++ ('/' :: W))) := rfl
  rw [hcons]
  rw [takeWhile_append_all host _ (by intro x hx; simpa using hhs x hx)]
  rw [takeWhile_cons_neg _ (by simp)]
  rw [dropWhile_append_all host _ (by intro x hx; simpa using hhs x hx)]
  rw [dropWhile_cons_neg _ (by simp)]
  rw [List.append_nil]
  have hhe : host.isEmpty = false := by
    cases host with
    | nil => exact absurd rfl hh
    | cons a as => rfl
  rw [hhe]
  simp only [Bool.false_eq_true, if_false]
  have hcs : stripCertSeg ('/' :: (strL "cert/" ++ (cert ++ ('/' :: W)))) =
      some (strL "/cert/", cert ++ ('/' :: W)) := rfl
  rw [hcs]
  simp only []
  rw [takeWhile_append_all cert _ hcd]
  rw [takeWhile_cons_neg _ (by decide)]
  rw [dropWhile_append_all cert _ hcd]
  rw [dropWhile_cons_neg _ (by decide)]
  rw [List.append_nil]
  have hce : cert.isEmpty = false := by
    cases cert with
    | nil => exact absurd rfl hc
    | cons a as => rfl
  rw [hce]
  simp only [Bool.false_eq_true, if_false]
  rfl

theorem tryAtOrig_parse (secure : Bool) (host cert W : Str)
    (hh : host ≠ []) (hhs : ∀ c ∈ host, c ≠ '/')
    (hcd : ∀ c ∈ cert, Char.isDigit c = true) (hc : cert ≠ []) :
    tryAtOrig ((if secure then strL "https://" else strL "http://") ++
        (host ++ (strL "/cert/" ++ (cert ++ ('/' :: W))))) =
      (match fnameMatch W with
      | none => none
      | some g3 =>
        some ((if secure then strL "https://" else strL "http://") ++ host ++
          strL "/cert/" ++ cert, g3)) := by
  have hsch : schemeSplit ((if secure then strL "https://" else strL "http://") ++
      (host ++ (strL "/cert/" ++ (cert ++ ('/' :: W))))) =
      some ((if secure then strL "https://" else strL "http://"),
        host ++ (strL "/cert/" ++ (cert ++ ('/' :: W)))) := by
    cases secure
    · exact rfl
    · exact rfl
  unfold tryAtOrig
  rw [hsch]
  simp only []
  have hcons : strL "/cert/" ++ (cert ++ ('/' :: W)) =
      '/' :: (strL "cert/" ++ (cert ++ ('/' :: W))) := rfl
  rw [hcons]
  rw [takeWhile_append_all host _ (by intro x hx; simpa using hhs x hx)]
  rw [takeWhile_cons_neg _ (by simp)]
  rw [dropWhile_append_all host _ (by intro x hx; simpa using hhs x hx)]
  rw [dropWhile_cons_neg _ (by simp)]
  rw [List.append_nil]
  have hhe : host.isEmpty = false := by
    cases host with
    | nil => exact absurd rfl hh
    | cons a as => rfl
  rw [hhe]
  simp only [Bool.false_eq_true, if_false]
  have hcs : stripCertSeg ('/' :: (strL "cert/" ++ (cert ++ ('/' :: W)))) =
      some (strL "/cert/", cert ++ ('/' :: W)) := rfl
  rw [hcs]
  simp only []
  rw [takeWhile_append_all cert _ hcd]
  rw [takeWhile_cons_neg _ (by decide)]
  rw [dropWhile_append_all cert _ hcd]
  rw [dropWhile_cons_neg _ (by decide)]
  rw [List.append_nil]
  have hce : cert.isEmpty = false := by
    cases cert with
    | nil => exact absurd rfl hc
    | cons a as => rfl
  rw [hce]
  simp only [Bool.false_eq_true, if_false]
  rfl

/-- Two adjacent slashes occur somewhere in the string. A successful scheme
parse (`https?://`) requires them, so strings without them fail at every
position. -/
def hasDS : Str → Bool
  | a :: b :: r => (a == '/' && b == '/') || hasDS (b :: r)
  | _ => false

theorem hasDS_cons2 (a b : Char) (r : Str) :
    hasDS (a :: b :: r) = ((a == '/' && b == '/') || hasDS (b :: r)) := rfl

theorem hasDS_append_sf (a : Str) (b : Str) (ha : ∀ c ∈ a, c ≠ '/') :
    hasDS (a ++ b) = hasDS b := by
  induction a with
  | nil => rfl
  | cons x a' ih =>
    have hx : x ≠ '/' := ha x (List.mem_cons_self x a')
    have ih' := ih fun c hc => ha c (List.mem_cons_of_mem x hc)
    cases hab : a' ++ b with
    | nil =>
      rcases List.append_eq_nil.mp hab with ⟨rfl, rfl⟩
      rfl
    | cons y r =>
      rw [List.cons_append, hab, hasDS_cons2, ← hab, ih']
      have : (x == '/') = false := by simpa using hx
      rw [this]
      simp

theorem hasDS_all_sf (l : Str) (h : ∀ c ∈ l, c ≠ '/') : hasDS l = false := by
  have := hasDS_append_sf l [] h
  simpa using this

theorem hasDS_slash_all (l : Str) (h : ∀ c ∈ l, c ≠ '/') :
    hasDS ('/' :: l) = false := by
  cases l with
  | nil => rfl
  | cons x r =>
    rw [hasDS_cons2]
    have hx : (x == '/') = false := by
      simpa using h x (List.mem_cons_self x r)
    rw [hx]
    simp only [Bool.and_false, Bool.false_or]
    exact hasDS_all_sf (x :: r) h

theorem hasDS_slash_cons_ne {x : Char} (r : Str) (hx : x ≠ '/') :
    hasDS ('/' :: x :: r) = hasDS (x :: r) := by
  rw [hasDS_cons2]
  have : (x == '/') = false := by simpa using hx
  rw [this]
  simp

theorem hasDS_of_dd : ∀ (x y : Str), hasDS (x ++ '/' :: '/' :: y) = true := by
  intro x
  induction x with
  | nil => intro y; simp [hasDS]
  | cons c x' ih =>
    intro y
    rw [List.cons_append]
    cases hx : x' ++ '/' :: '/' :: y with
    | nil => exact absurd hx (by simp)
    | cons y' r' =>
      rw [hasDS_cons2, ← hx, ih y]
      simp

theorem hasDS_append_right (pre t : Str) (h : hasDS t = true) :
    hasDS (pre ++ t) = true := by
  induction pre with
  | nil => exact h
  | cons c pre' ih =>
    rw [List.cons_append]
    cases hx : pre' ++ t with
    | nil =>
      rcases List.append_eq_nil.mp hx with ⟨rfl, rfl⟩
      exact absurd h (by simp [hasDS])
    | cons y r =>
      rw [hasDS_cons2, ← hx, ih]
      simp

theorem hasDS_of_suffix {t s : Str} (hts : t <:+ s) (h : hasDS t = true) :
    hasDS s = true := by
  obtain ⟨pre, rfl⟩ := hts
  exact hasDS_append_right pre t h

theorem schemeWithS_hasDS {s : Str} {g : Str × Str}
    (h : schemeWithS s = some g) : hasDS s = true := by
  unfold schemeWithS at h
  split at h
  · rename_i c1 c2 c3 c4 c5 r
    have he : ([c1, c2, c3, c4, c5, ':'] : Str) ++ '/' :: '/' :: r =
        c1 :: c2 :: c3 :: c4 :: c5 :: ':' :: '/' :: '/' :: r := rfl
    rw [← he]
    exact hasDS_of_dd _ _
  · exact absurd h (by simp)

theorem schemeNoS_hasDS {s : Str} {g : Str × Str}
    (h : schemeNoS s = some g) : hasDS s = true := by
  unfold schemeNoS at h
  split at h
  · rename_i d1 d2 d3 d4 r
    have he : ([d1, d2, d3, d4, ':'] : Str) ++ '/' :: '/' :: r =
        d1 :: d2 :: d3 :: d4 :: ':' :: '/' :: '/' :: r := rfl
    rw [← he]
    exact hasDS_of_dd _ _
  · exact absurd h (by simp)

theorem schemeSplit_hasDS {s : Str} {g : Str × Str}
    (h : schemeSplit s = some g) : hasDS s = true := by
  unfold schemeSplit at h
  cases s with
  | nil => exact absurd h (by simp)
  | cons c cs =>
    simp only [] at h
    by_cases hci : ciEq c 'h' = true
    · rw [if_pos hci] at h
      cases hws : schemeWithS (c :: cs) with
      | some g' => exact schemeWithS_hasDS hws
      | none =>
        rw [hws] at h
        exact schemeNoS_hasDS h
    · rw [if_neg hci] at h
      exact absurd h (by simp)

theorem tryAtWS_of_scheme_none {s : Str} (h : schemeSplit s = none) :
    tryAtWS s = none := by
  unfold tryAtWS
  rw [h]

theorem tryAtWS_scheme_some {s : Str} {g : Str × Str}
    (h : tryAtWS s = some g) : ∃ p, schemeSplit s = some p := by
  unfold tryAtWS at h
  cases hs : schemeSplit s with
  | none => rw [hs] at h; exact absurd h (by simp)
  | some p => exact ⟨p, rfl⟩

theorem tryAtWS_none_of_noDS {s : Str} (h : hasDS s = false) :
    tryAtWS s = none := by
  cases h' : tryAtWS s with
  | none => rfl
  | some g =>
    obtain ⟨p, hp⟩ := tryAtWS_scheme_some h'
    rw [schemeSplit_hasDS hp] at h
    exact absurd h (by simp)

theorem tryAtWS_head_fail {c : Char} (l : Str) (h : ciEq c 'h' = false) :
    tryAtWS (c :: l) = none := by
  apply tryAtWS_of_scheme_none
  unfold schemeSplit
  simp only []
  rw [h]
  simp

theorem searchWS_eq_none {s : Str} (h : ∀ t, t <:+ s → tryAtWS t = none) :
    searchWS s = none := by
  induction s with
  | nil => rfl
  | cons c cs ih =>
    unfold searchWS
    rw [h (c :: cs) (List.suffix_refl _)]
    exact ih fun t ht => h t (ht.trans (List.suffix_cons c cs))

theorem suffix_append_cases {t a b : Str} (h : t <:+ a ++ b) :
    t <:+ b ∨ ∃ a', a' <:+ a ∧ a' ≠ [] ∧ t = a' ++ b := by
  induction a with
  | nil => exact Or.inl (by simpa using h)
  | cons x a' ih =>
    rcases List.suffix_cons_iff.mp (by simpa using h) with h' | h'
    · exact Or.inr ⟨x :: a', List.suffix_refl _, by simp, by simpa using h'⟩
    · rcases ih h' with h'' | ⟨a'', ha1, ha2, ha3⟩
      · exact Or.inl h''
      · exact Or.inr ⟨a'', ha1.trans (List.suffix_cons x a'), ha2, ha3⟩

theorem wfB_spec {u : CdnUrl} (h : u.wfB = true) :
    u.host ≠ [] ∧ (∀ c ∈ u.host, c ≠ '/') ∧
    (∀ c ∈ u.cert, Char.isDigit c = true) ∧ u.cert ≠ [] ∧
    u.fname ≠ [] ∧ (∀ c ∈ u.fname, c ≠ '/' ∧ c ≠ '?' ∧ c ≠ '\\' ∧ c ≠ '.') := by
  unfold CdnUrl.wfB at h
  simp only [Bool.and_eq_true, List.all_eq_true, Bool.not_eq_true',
    List.isEmpty_iff, beq_eq_false_iff_ne, Bool.or_eq_false_iff] at h
  obtain ⟨⟨⟨⟨⟨h1, h2⟩, h3⟩, h4⟩, h5⟩, h6⟩ := h
  refine ⟨by simpa using h1, h2, h4, by simpa using h3, by simpa using h5, ?_⟩
  intro c hc
  obtain ⟨⟨⟨ha, hb⟩, hcq⟩, hd⟩ := h6 c hc
  exact ⟨ha, hb, hcq, hd⟩

/-- The part of the path after the slash that follows the certificate number. -/
def SizeTier.w (t : SizeTier) (fe : Str) : Str :=
  match t with
  | .original => fe
  | .large => strL "large" ++ '/' :: fe
  | .medium => strL "medium" ++ '/' :: fe
  | .small => strL "small" ++ '/' :: fe

theorem seg_w (t : SizeTier) (fe : Str) : t.seg ++ fe = '/' :: t.w fe := by
  cases t <;> rfl

theorem render_canonical (u : CdnUrl) :
    u.render = (if u.secure then strL "https://" else strL "http://") ++
      (u.host ++ (strL "/cert/" ++ (u.cert ++ ('/' :: u.tier.w u.fnameExt)))) := by
  unfold CdnUrl.render CdnUrl.base
  rw [← seg_w]
  simp [List.append_assoc]

theorem fnameExt_no_slash {u : CdnUrl} (h : u.wfB = true) :
    ∀ c ∈ u.fnameExt, c ≠ '/' := by
  obtain ⟨_, _, _, _, _, hf⟩ := wfB_spec h
  intro c hc
  unfold CdnUrl.fnameExt at hc
  rcases List.mem_append.mp hc with h' | h'
  · exact (hf c h').1
  · have hall : ∀ x ∈ ('.' :: u.ext.str), x ≠ '/' := by
      cases u.ext <;> decide
    exact hall c h'

theorem fnameExt_allowed {u : CdnUrl} (h : u.wfB = true) :
    ∀ c ∈ u.fname, allowedF c = true := by
  obtain ⟨_, _, _, _, _, hf⟩ := wfB_spec h
  intro c hc
  obtain ⟨h1, h2, h3, _⟩ := hf c hc
  simp [allowedF, h1, h2, h3]

theorem fnameMatch_u {u : CdnUrl} (h : u.wfB = true) :
    fnameMatch u.fnameExt = some u.fnameExt := by
  obtain ⟨_, _, _, _, hf, _⟩ := wfB_spec h
  exact fnameMatch_fnameExt u.fname u.ext hf (fnameExt_allowed h)

theorem tierAlt_w {t : SizeTier} (ht : t ≠ .original) (fe : Str) :
    altFirst tierWords (t.w fe) = some (t.seg.drop 1 |>.dropLast, '/' :: fe) := by
  cases t with
  | original => exact absurd rfl ht
  | large => rfl
  | medium => rfl
  | small => rfl

theorem tryAtWS_render_tiered {u : CdnUrl} (h : u.wfB = true)
    (ht : u.tier ≠ .original) :
    tryAtWS u.render = some (u.base, u.fnameExt) := by
  obtain ⟨hh, hhs, hcd, hc, hf, hfc⟩ := wfB_spec h
  rw [render_canonical, tryAtWS_parse u.secure u.host u.cert _ hh hhs hcd hc]
  rw [tierAlt_w ht u.fnameExt]
  simp only [if_pos rfl]
  rw [fnameMatch_u h]
  rfl

theorem tryAtWS_render_orig {u : CdnUrl} (h : u.wfB = true)
    (ht : u.tier = .original) :
    tryAtWS u.render = none := by
  obtain ⟨hh, hhs, hcd, hc, hf, hfc⟩ := wfB_spec h
  rw [render_canonical, tryAtWS_parse u.secure u.host u.cert _ hh hhs hcd hc]
  rw [ht]
  cases halt : altFirst tierWords (SizeTier.original.w u.fnameExt) with
  | none => rfl
  | some pr =>
    obtain ⟨tw, r5⟩ := pr
    have hsub := altFirst_rest_mem halt
    cases hr5 : r5 with
    | nil => rfl
    | cons c5 r6 =>
      have hc5 : c5 ≠ '/' := by
        have hmem : c5 ∈ SizeTier.original.w u.fnameExt := by
          apply hsub
          rw [hr5]
          exact List.mem_cons_self c5 r6
        exact fnameExt_no_slash h c5 hmem
      simp only []
      rw [if_neg hc5]

theorem tryAtOrig_render_orig {u : CdnUrl} (h : u.wfB = true)
    (ht : u.tier = .original) :
    tryAtOrig u.render = some (u.base, u.fnameExt) := by
  obtain ⟨hh, hhs, hcd, hc, hf, hfc⟩ := wfB_spec h
  rw [render_canonical, tryAtOrig_parse u.secure u.host u.cert _ hh hhs hcd hc]
  rw [ht]
  have : SizeTier.original.w u.fnameExt = u.fnameExt := rfl
  rw [this, fnameMatch_u h]
  rfl

/-- The scheme letters of the rendered URL. -/
def schemeWord (secure : Bool) : Str :=
  if secure then strL "https" else strL "http"

theorem render_scheme_split (u : CdnUrl) :
    u.render = schemeWord u.secure ++
      (':' :: '/' :: '/' ::
        (u.host ++ (strL "/cert/" ++ (u.cert ++ ('/' :: u.tier.w u.fnameExt))))) := by
  rw [render_canonical]
  cases hs : u.secure <;> rfl

theorem hasDS_rest_false {u : CdnUrl} (h : u.wfB = true) :
    hasDS (u.host ++ (strL "/cert/" ++ (u.cert ++ ('/' :: u.fnameExt)))) = false := by
  obtain ⟨hh, hhs, hcd, hc, hf, hfc⟩ := wfB_spec h
  rw [hasDS_append_sf _ _ hhs]
  have he : hasDS (strL "/cert/" ++ (u.cert ++ ('/' :: u.fnameExt))) =
      hasDS ('/' :: (u.cert ++ ('/' :: u.fnameExt))) := rfl
  rw [he]
  cases hcert : u.cert with
  | nil => exact absurd hcert hc
  | cons d cert' =>
    have hd : d ≠ '/' := by
      intro hd'
      have := hcd d (by rw [hcert]; exact List.mem_cons_self d cert')
      rw [hd'] at this
      exact absurd this (by decide)
    rw [List.cons_append, hasDS_slash_cons_ne _ hd, ← List.cons_append, ← hcert]
    rw [hasDS_append_sf _ _ ?hsf]
    case hsf =>
      intro c hcmem
      intro hc'
      have := hcd c hcmem
      rw [hc'] at this
      exact absurd this (by decide)
    exact hasDS_slash_all _ (fnameExt_no_slash h)

theorem schemeWord_tails (secure : Bool) (a' : Str)
    (ha : a' <:+ schemeWord secure) (hne : a' ≠ []) (hfull : a' ≠ schemeWord secure) :
    ∃ c l, a' = c :: l ∧ ciEq c 'h' = false := by
  cases secure with
  | false =>
    have : a' ∈ (strL "http").tails := (List.mem_tails _ _).mpr ha
    have htails : (strL "http").tails = [strL "http", strL "ttp", strL "tp",
        strL "p", []] := rfl
    rw [htails] at this
    have henum : a' = strL "http" ∨ a' = strL "ttp" ∨ a' = strL "tp" ∨
        a' = strL "p" ∨ a' = [] := by
      simpa using this
    rcases henum with h' | h' | h' | h' | h'
    · exact absurd h' hfull
    · exact ⟨'t', strL "tp", by rw [h']; rfl, by decide⟩
    · exact ⟨'t', strL "p", by rw [h']; rfl, by decide⟩
    · exact ⟨'p', [], by rw [h']; rfl, by decide⟩
    · exact absurd h' hne
  | true =>
    have : a' ∈ (strL "https").tails := (List.mem_tails _ _).mpr ha
    have htails : (strL "https").tails = [strL "https", strL "ttps", strL "tps",
        strL "ps", strL "s", []] := rfl
    rw [htails] at this
    have henum : a' = strL "https" ∨ a' = strL "ttps" ∨ a' = strL "tps" ∨
        a' = strL "ps" ∨ a' = strL "s" ∨ a' = [] := by
      simpa using this
    rcases henum with h' | h' | h' | h' | h' | h'
    · exact absurd h' hfull
    · exact ⟨'t', strL "tps", by rw [h']; rfl, by decide⟩
    · exact ⟨'t', strL "ps", by rw [h']; rfl, by decide⟩
    · exact ⟨'p', strL "s", by rw [h']; rfl, by decide⟩
    · exact ⟨'s', [], by rw [h']; rfl, by decide⟩
    · exact absurd h' hne

theorem searchWS_render_orig {u : CdnUrl} (h : u.wfB = true)
    (ht : u.tier = .original) :
    searchWS u.render = none := by
  apply searchWS_eq_none
  intro t htsuf
  have hw : u.tier.w u.fnameExt = u.fnameExt := by rw [ht]; rfl
  rw [render_scheme_split, hw] at htsuf
  rcases suffix_append_cases htsuf with hcase | ⟨a', ha1, ha2, rfl⟩
  · rcases List.suffix_cons_iff.mp hcase with h1 | h1
    · rw [h1]; exact tryAtWS_head_fail _ (by decide)
    · rcases List.suffix_cons_iff.mp h1 with h2 | h2
      · rw [h2]; exact tryAtWS_head_fail _ (by decide)
      · rcases List.suffix_cons_iff.mp h2 with h3 | h3
        · rw [h3]; exact tryAtWS_head_fail _ (by decide)
        · apply tryAtWS_none_of_noDS
          cases hvalue : hasDS t with
          | false => rfl
          | true =>
            have := hasDS_of_suffix h3 hvalue
            rw [hasDS_rest_false h] at this
            exact absurd this (by simp)
  · by_cases hfull : a' = schemeWord u.secure
    · subst hfull
      have heq : schemeWord u.secure ++
          (':' :: '/' :: '/' ::
            (u.host ++ (strL "/cert/" ++ (u.cert ++ ('/' :: u.fnameExt))))) =
          u.render := by
        rw [render_scheme_split, hw]
      rw [heq]
      exact tryAtWS_render_orig h ht
    · obtain ⟨c, l, hcl, hci⟩ := schemeWord_tails u.secure a' ha1 ha2 hfull
      rw [hcl, List.cons_append]
      exact tryAtWS_head_fail _ hci

theorem searchWS_of_tryAt {s : Str} {g : Str × Str} (hne : s ≠ [])
    (h : tryAtWS s = some g) : searchWS s = some g := by
  cases s with
  | nil => exact absurd rfl hne
  | cons c cs => unfold searchWS; rw [h]

theorem searchOrig_of_tryAt {s : Str} {g : Str × Str} (hne : s ≠ [])
    (h : tryAtOrig s = some g) : searchOrig s = some g := by
  cases s with
  | nil => exact absurd rfl hne
  | cons c cs => unfold searchOrig; rw [h]

theorem render_head (u : CdnUrl) :
    u.render = 'h' :: (u.render.drop 1) := by
  rw [render_scheme_split]
  cases u.secure <;> rfl

theorem render_ne_nil (u : CdnUrl) : u.render ≠ [] := by
  rw [render_head u]
  exact List.cons_ne_nil _ _

theorem ext_snoc (e : ImgExt) :
    ∃ init c, e.str = init ++ [c] ∧ (c == '\\' || c == '/') = false ∧
      isPySpace c = false := by
  cases e with
  | jpg => exact ⟨strL "jp", 'g', rfl, by decide, by decide⟩
  | jpeg => exact ⟨strL "jpe", 'g', rfl, by decide, by decide⟩
  | png => exact ⟨strL "pn", 'g', rfl, by decide, by decide⟩
  | webp => exact ⟨strL "web", 'p', rfl, by decide, by decide⟩

theorem fnameExt_snoc (u : CdnUrl) :
    ∃ a c, u.fnameExt = a ++ [c] ∧ (c == '\\' || c == '/') = false ∧
      isPySpace c = false := by
  obtain ⟨init, c, he, h1, h2⟩ := ext_snoc u.ext
  refine ⟨u.fname ++ '.' :: init, c, ?_, h1, h2⟩
  unfold CdnUrl.fnameExt
  rw [he]
  simp

theorem clean_id_of (s : Str) (c0 : Char) (r : Str) (hs : s = c0 :: r)
    (h0 : isPySpace c0 = false) (a : Str) (cl : Char) (hsnoc : s = a ++ [cl])
    (h1 : (cl == '\\' || cl == '/') = false) (h2 : isPySpace cl = false) :
    pyStrip (rstripSlashBS s) = s := by
  unfold pyStrip rstripSlashBS
  rw [hsnoc, rstripChars_snoc a h1, ← hsnoc, hs, dropWhile_cons_neg _ h0, ← hs,
    hsnoc, rstripChars_snoc a h2]

theorem clean_render (u : CdnUrl) : pyStrip (rstripSlashBS u.render) = u.render := by
  obtain ⟨a, cl, hsnoc, h1, h2⟩ := fnameExt_snoc u
  refine clean_id_of u.render 'h' (u.render.drop 1) (render_head u) (by decide)
    (u.base ++ u.tier.seg ++ a) cl ?_ h1 h2
  unfold CdnUrl.render
  rw [hsnoc]
  simp

theorem sizeBuild_seg (base fe : Str) (t : SizeTier) :
    sizeBuild base fe t.str = some (base ++ t.seg ++ fe) := by
  cases t <;> rfl

theorem base_setTier (u : CdnUrl) (t : SizeTier) : (u.setTier t).render =
    u.base ++ t.seg ++ u.fnameExt := rfl

theorem stripBoth_fnameExt {u : CdnUrl} (h : u.wfB = true) :
    stripSlashBSBoth u.fnameExt = u.fnameExt := by
  obtain ⟨_, _, _, _, hf, hfc⟩ := wfB_spec h
  obtain ⟨a, cl, hsnoc, h1, h2⟩ := fnameExt_snoc u
  unfold stripSlashBSBoth
  cases hfn : u.fname with
  | nil => exact absurd hfn hf
  | cons f0 f' =>
    have hf0 : (f0 == '\\' || f0 == '/') = false := by
      obtain ⟨ha, _, hb, _⟩ := hfc f0 (by rw [hfn]; exact List.mem_cons_self f0 f')
      simp [ha, hb]
    have hfe : u.fnameExt = f0 :: (f' ++ '.' :: u.ext.str) := by
      unfold CdnUrl.fnameExt
      rw [hfn]
      rfl
    rw [hfe, dropWhile_cons_neg _ hf0, ← hfe, hsnoc]
    unfold rstripSlashBS
    exact rstripChars_snoc a h1

/-- `_convert_to_size` maps a well-formed CDN URL of any tier to the same
URL rewritten at the requested tier. -/
theorem convertToSize_render (u : CdnUrl) (h : u.wfB = true) (t : SizeTier) :
    convertToSize u.render t.str = some ((u.setTier t).render) := by
  unfold convertToSize
  simp only []
  rw [clean_render u]
  by_cases ht : u.tier = SizeTier.original
  · rw [searchWS_render_orig h ht]
    simp only []
    rw [searchOrig_of_tryAt (render_ne_nil u) (tryAtOrig_render_orig h ht)]
    simp only []
    rw [stripBoth_fnameExt h, sizeBuild_seg u.base u.fnameExt t, base_setTier]
  · rw [searchWS_of_tryAt (render_ne_nil u) (tryAtWS_render_tiered h ht)]
    simp only []
    rw [stripBoth_fnameExt h, sizeBuild_seg u.base u.fnameExt t, base_setTier]

/-- C1. For every URL of the recognized CDN shape (structured as a
well-formed `CdnUrl`, with or without a tier segment) and every pair of
target tiers, converting to tier `t1` and then to tier `t2` gives exactly
the direct conversion to `t2`; with `t1 = t2` this is idempotence. -/
theorem convert_to_size_composes :
    ∀ (u : CdnUrl) (t1 t2 : SizeTier), u.wfB = true →
      ∃ v1, convertToSize u.render t1.str = some v1 ∧
        convertToSize v1 t2.str = convertToSize u.render t2.str := by
  intro u t1 t2 h
  refine ⟨(u.setTier t1).render, convertToSize_render u h t1, ?_⟩
  have hwf1 : (u.setTier t1).wfB = true := h
  rw [convertToSize_render (u.setTier t1) hwf1 t2, convertToSize_render u h t2]
  rfl

theorem convert_to_size_composes_witness :
    ∃ v1,
      convertToSize
        (CdnUrl.render ⟨true, strL "d.cf.net", strL "123", SizeTier.small,
          strL "front", ImgExt.jpg⟩) SizeTier.large.str = some v1 ∧
      convertToSize v1 SizeTier.original.str =
        convertToSize
          (CdnUrl.render ⟨true, strL "d.cf.net", strL "123", SizeTier.small,
            strL "front", ImgExt.jpg⟩) SizeTier.original.str :=
  convert_to_size_composes
    ⟨true, strL "d.cf.net", strL "123", SizeTier.small, strL "front", ImgExt.jpg⟩
    SizeTier.large SizeTier.original (by decide)

/-! ## C4: the requested tier is ignored -/

/-- C4. In download mode, a discovered `/small/` candidate is returned at
the *original* tier: the conversion loop of lines 938-956 always targets
`'original'` and never reads the `image_size` parameter, contradicting the
function's own docstring (lines 826-832), which promises the size selected
by `image_size`. -/
theorem download_ignores_requested_tier :
    getHighResImagesDownload (strL "123")
        [strL "https://d.cloudfront.net/cert/123/small/front.jpg"] =
      .ok [strL "https://d.cloudfront.net/cert/123/front.jpg"] ∧
    sizeFree (strL "https://d.cloudfront.net/cert/123/front.jpg") = true := by
  refine ⟨by rfl, by rfl⟩

/-! ## C10: download-mode outputs and tier segments -/

theorem filterImagesByCert_subset {l : List Str} {cn : Str} {l1 : List Str}
    (h : filterImagesByCert l cn = .ok l1) : ∀ v ∈ l1, v ∈ l := by
  intro v hv
  unfold filterImagesByCert at h
  by_cases hne : l.isEmpty = true
  · rw [if_pos hne] at h
    injection h with h'
    subst h'
    exact absurd hv (List.not_mem_nil v)
  · rw [if_neg hne] at h
    cases hex : extractCertNumber cn with
    | error e => rw [hex] at h; exact absurd h (by simp [Except.map])
    | ok c =>
      rw [hex] at h
      simp only [Except.map, Except.ok.injEq] at h
      subst h
      exact (List.mem_filter.mp hv).1

theorem setTier_self {u : CdnUrl} {t : SizeTier} (h : u.tier = t) :
    u.setTier t = u := by
  cases u
  unfold CdnUrl.setTier
  simp only [CdnUrl.mk.injEq]
  simp_all

theorem sizeFree_spec {s : Str} :
    sizeFree s = true ↔ containsStr s (strL "/small/") = false ∧
      containsStr s (strL "/large/") = false ∧
      containsStr s (strL "/medium/") = false := by
  unfold sizeFree
  simp [Bool.or_eq_false_iff, and_assoc]

theorem render_tier_contains {u : CdnUrl} (ht : u.tier ≠ SizeTier.original) :
    (containsStr u.render (strL "/small/") ||
     containsStr u.render (strL "/large/") ||
     containsStr u.render (strL "/medium/")) = true := by
  have hinf : u.tier.seg <:+: u.render := ⟨u.base, u.fnameExt, rfl⟩
  have hcont := (containsStr_infix_iff u.render u.tier.seg).mpr hinf
  cases htier : u.tier with
  | original => exact absurd htier ht
  | small =>
    rw [htier] at hcont
    rw [show containsStr u.render (strL "/small/") = true from hcont]
    rfl
  | large =>
    rw [htier] at hcont
    rw [show containsStr u.render (strL "/large/") = true from hcont]
    simp
  | medium =>
    rw [htier] at hcont
    rw [show containsStr u.render (strL "/medium/") = true from hcont]
    simp

theorem convertDownloadOne_sizeFree {c : Str} (h : sizeFree c = true) :
    convertDownloadOne c = pyStrip (rstripSlashBS c) ∧
    sizeFree (convertDownloadOne c) = true := by
  obtain ⟨h1, h2, h3⟩ := sizeFree_spec.mp h
  have hmono : ∀ w, containsStr (pyStrip (rstripSlashBS c)) w = true →
      containsStr c w = true := fun w => containsStr_mono (cleanUrl_infix_self c)
  have hc1 : containsStr (pyStrip (rstripSlashBS c)) (strL "/small/") = false := by
    cases hx : containsStr (pyStrip (rstripSlashBS c)) (strL "/small/") with
    | false => rfl
    | true => rw [hmono _ hx] at h1; exact absurd h1 (by simp)
  have hc2 : containsStr (pyStrip (rstripSlashBS c)) (strL "/large/") = false := by
    cases hx : containsStr (pyStrip (rstripSlashBS c)) (strL "/large/") with
    | false => rfl
    | true => rw [hmono _ hx] at h2; exact absurd h2 (by simp)
  have hc3 : containsStr (pyStrip (rstripSlashBS c)) (strL "/medium/") = false := by
    cases hx : containsStr (pyStrip (rstripSlashBS c)) (strL "/medium/") with
    | false => rfl
    | true => rw [hmono _ hx] at h3; exact absurd h3 (by simp)
  constructor
  · unfold convertDownloadOne
    simp only []
    rw [hc1, hc2, hc3]
    rfl
  · unfold convertDownloadOne
    simp only []
    rw [hc1, hc2, hc3]
    simp only [Bool.or_self, Bool.false_eq_true, if_false]
    exact sizeFree_spec.mpr ⟨hc1, hc2, hc3⟩

theorem convertDownloadOne_render {u : CdnUrl} (h : u.wfB = true) :
    convertDownloadOne u.render = (u.setTier SizeTier.original).render := by
  unfold convertDownloadOne
  simp only []
  rw [clean_render u]
  by_cases ht : u.tier = SizeTier.original
  · have horig : convertToSize u.render SizeTier.original.str =
        some ((u.setTier SizeTier.original).render) := convertToSize_render u h _
    by_cases hcond : (containsStr u.render (strL "/small/") ||
        containsStr u.render (strL "/large/") ||
        containsStr u.render (strL "/medium/")) = true
    · rw [hcond]
      simp only [if_true]
      rw [show strL "original" = SizeTier.original.str from rfl, horig]
    · rw [Bool.not_eq_true] at hcond
      rw [hcond]
      simp only [Bool.false_eq_true, if_false]
      rw [setTier_self ht]
  · rw [render_tier_contains ht]
    simp only [if_true]
    rw [show strL "original" = SizeTier.original.str from rfl,
      convertToSize_render u h SizeTier.original]

/-- C10 (amended). In download mode, every returned URL derived from a
candidate that either carries no tier segment or is a well-formed CDN URL is
tier-free resp. the original-tier rewrite of that CDN URL. (Without the
well-formedness restriction the claim fails: a candidate with nested tier
segments survives with a tier segment — see the counterexample.) -/
theorem download_output_original_shape :
    ∀ (cert : Str) (cands : List Str) (out : List Str),
      getHighResImagesDownload cert cands = .ok out →
      (∀ c ∈ cands, sizeFree c = true ∨ ∃ u : CdnUrl, u.wfB = true ∧ c = u.render) →
      ∀ v ∈ out, sizeFree v = true ∨
        ∃ u : CdnUrl, u.wfB = true ∧ u.tier = SizeTier.original ∧ v = u.render := by
  intro cert cands out hok hc v hv
  unfold getHighResImagesDownload at hok
  cases hex : extractCertNumber cert with
  | error e =>
    rw [hex] at hok
    exact absurd hok (by simp [Bind.bind, Except.bind])
  | ok cn =>
    rw [hex] at hok
    simp only [Bind.bind, Except.bind] at hok
    cases hfil : filterImagesByCert (cands.map convertDownloadOne) cn with
    | error e =>
      rw [hfil] at hok
      exact absurd hok (by simp)
    | ok l1 =>
      rw [hfil] at hok
      simp only [pure, Except.pure, Except.ok.injEq] at hok
      subst hok
      have hv1 : v ∈ l1 := by
        have h2 := dedup_subset [] _ v hv
        exact ((mem_filterUnnecessaryFiles _ v).mp h2).1
      have hv2 : v ∈ cands.map convertDownloadOne :=
        filterImagesByCert_subset hfil v hv1
      obtain ⟨c, hcmem, rfl⟩ := List.mem_map.mp hv2
      rcases hc c hcmem with hfree | ⟨u, hwf, rfl⟩
      · exact Or.inl (convertDownloadOne_sizeFree hfree).2
      · refine Or.inr ⟨u.setTier SizeTier.original, hwf, rfl, ?_⟩
        exact convertDownloadOne_render hwf

/-- C10 (counterexample). A discovered candidate with nested tier segments
(`.../cert/123/small/medium/f.jpg`, matched by the raw-markup CloudFront
scan whose filename part admits slashes) survives download mode with a
`/medium/` segment intact: `_convert_to_size` fails on it and the one-pass
regex strip removes only the first segment. -/
theorem download_tier_segment_counterexample :
    getHighResImagesDownload (strL "123")
        [strL "https://x.cloudfront.net/cert/123/small/medium/f.jpg"] =
      .ok [strL "https://x.cloudfront.net/cert/123/medium/f.jpg"] ∧
    containsStr (strL "https://x.cloudfront.net/cert/123/medium/f.jpg")
      (strL "/medium/") = true := by
  refine ⟨by rfl, by rfl⟩

theorem download_output_original_shape_witness :
    sizeFree (strL "https://d.cf.net/cert/123/front.jpg") = true ∨
      ∃ u : CdnUrl, u.wfB = true ∧ u.tier = SizeTier.original ∧
        strL "https://d.cf.net/cert/123/front.jpg" = u.render :=
  download_output_original_shape (strL "123")
    [CdnUrl.render ⟨true, strL "d.cf.net", strL "123", SizeTier.small,
      strL "front", ImgExt.jpg⟩]
    [strL "https://d.cf.net/cert/123/front.jpg"] (by rfl)
    (by
      intro c hcm
      refine Or.inr ⟨⟨true, strL "d.cf.net", strL "123", SizeTier.small,
        strL "front", ImgExt.jpg⟩, by decide, ?_⟩
      simpa using hcm)
    (strL "https://d.cf.net/cert/123/front.jpg") (by simp)

/-! ## C9: proxy fallback scope -/

/-- Trace invariant: the accumulated request trace is `goodB` and any
handler-observed proxy error already recorded implies the fallback flag is
set. -/
def StOk (st : AttState) : Prop :=
  goodB st.trace = true ∧ (hasTrigB st.trace = true → st.flag = true)

theorem allNoneB_append (a b : List Req) :
    allNoneB (a ++ b) = (allNoneB a && allNoneB b) := by
  simp [allNoneB, List.all_append]

theorem hasTrigB_append (a b : List Req) :
    hasTrigB (a ++ b) = (hasTrigB a || hasTrigB b) := by
  simp [hasTrigB, List.any_append]

theorem goodB_snoc (t : List Req) (q : Req) (hg : goodB t = true)
    (hcross : hasTrigB t = true → q.proxy = none) : goodB (t ++ [q]) = true := by
  induction t with
  | nil => simp [goodB, allNoneB]
  | cons r t' ih =>
    rw [List.cons_append]
    unfold goodB at hg ⊢
    simp only [Bool.and_eq_true, Bool.or_eq_true, Bool.not_eq_true'] at hg ⊢
    obtain ⟨h1, h2⟩ := hg
    have hcross' : hasTrigB t' = true → q.proxy = none := by
      intro hpe
      apply hcross
      unfold hasTrigB at hpe ⊢
      simp only [List.any_cons, Bool.or_eq_true]
      exact Or.inr (by simpa [hasTrigB] using hpe)
    refine ⟨?_, ih h2 hcross'⟩
    by_cases hpe : isTrigger r = true
    · right
      have ht' : allNoneB t' = true := by
        rcases h1 with h1 | h1
        · rw [hpe] at h1; exact absurd h1 (by simp)
        · exact h1
      have hq : q.proxy = none := by
        apply hcross
        unfold hasTrigB
        simp [List.any_cons, hpe]
      rw [allNoneB_append, ht']
      simp [allNoneB, hq]
    · left
      simpa using hpe

theorem goodB_snoc2 (t : List Req) (q1 q2 : Req) (hg : goodB t = true)
    (h1 : hasTrigB t = true → q1.proxy = none)
    (h2 : hasTrigB t = true → q2.proxy = none)
    (h3 : isTrigger q1 = true → q2.proxy = none) :
    goodB ((t ++ [q1]) ++ [q2]) = true := by
  refine goodB_snoc _ _ (goodB_snoc _ _ hg h1) ?_
  intro h
  rw [hasTrigB_append] at h
  simp only [Bool.or_eq_true] at h
  rcases h with h | h
  · exact h2 h
  · exact h3 (by simpa [hasTrigB] using h)

theorem StOk_ite_fst (P : Prop) [inst : Decidable P] (a b : AttState × AttOut)
    (ha : StOk a.1) (hb : StOk b.1) : StOk (ite P a b).1 := by
  by_cases h : P
  · rw [if_pos h]; exact ha
  · rw [if_neg h]; exact hb

theorem hasTrigB_snoc_nt (t : List Req) (q : Req) (hq : isTrigger q = false) :
    hasTrigB (t ++ [q]) = hasTrigB t := by
  rw [hasTrigB_append]
  simp [hasTrigB, hq]

theorem hasTrigB_single (q : Req) : hasTrigB [q] = isTrigger q := by
  simp [hasTrigB]

theorem hflag2 {t : List Req} (hnt : hasTrigB t = false) (q : Req)
    (hq : isTrigger q = false) {b : Bool} :
    hasTrigB (t ++ [q]) = true → b = true := by
  intro h
  rw [hasTrigB_append, hnt, hasTrigB_single, hq] at h
  exact absurd h (by simp)

theorem hflag3 {t : List Req} (hnt : hasTrigB t = false) (q1 q2 : Req)
    (hq1 : isTrigger q1 = false) (hq2 : isTrigger q2 = false) {b : Bool} :
    hasTrigB ((t ++ [q1]) ++ [q2]) = true → b = true := by
  intro h
  rw [hasTrigB_append, hasTrigB_append, hnt, hasTrigB_single,
    hasTrigB_single, hq1, hq2] at h
  exact absurd h (by simp)

theorem absurdTrig {q : Req} (hq : isTrigger q = false) {C : Prop} :
    isTrigger q = true → C := by
  intro h
  rw [hq] at h
  exact absurd h (by simp)

theorem attempt1_StOk (cfg : ProxyCfg) (st : AttState) (hok : StOk st) :
    StOk (attempt1 cfg st).1 := by
  obtain ⟨t, f, c, sc, ro⟩ := st
  obtain ⟨hg, hf⟩ := hok
  simp only at hg hf
  cases f with
  | true =>
    cases sc with
    | nil =>
      exact ⟨goodB_snoc _ _ hg (fun _ => rfl), fun _ => rfl⟩
    | cons o rest =>
      cases o with
      | ok h => exact ⟨goodB_snoc _ _ hg (fun _ => rfl), fun _ => rfl⟩
      | proxyErr => exact ⟨goodB_snoc _ _ hg (fun _ => rfl), fun _ => rfl⟩
      | sslErr =>
        cases rest with
        | nil =>
          refine StOk_ite_fst _ _ _ ?_ ?_
          · exact ⟨goodB_snoc2 _ _ _ hg (fun _ => rfl) (fun _ => rfl)
              (fun _ => rfl), fun _ => rfl⟩
          · exact ⟨goodB_snoc _ _ hg (fun _ => rfl), fun _ => rfl⟩
        | cons o2 rest2 =>
          cases o2 <;>
          · refine StOk_ite_fst _ _ _ ?_ ?_
            · exact ⟨goodB_snoc2 _ _ _ hg (fun _ => rfl) (fun _ => rfl)
                (fun _ => rfl), fun _ => rfl⟩
            · exact ⟨goodB_snoc _ _ hg (fun _ => rfl), fun _ => rfl⟩
      | connErr refused =>
        exact ⟨goodB_snoc _ _ hg (fun _ => rfl), fun _ => rfl⟩
      | httpErr status =>
        refine StOk_ite_fst _ _ _ ?_ ?_ <;>
          exact ⟨goodB_snoc _ _ hg (fun _ => rfl), fun _ => rfl⟩
  | false =>
    have hnt : hasTrigB t = false := by
      cases h : hasTrigB t with
      | false => rfl
      | true => exact absurd (hf h) (by simp)
    have hx : ∀ p : Option Str, hasTrigB t = true → p = none := by
      intro p h; rw [hnt] at h; exact absurd h (by simp)
    cases sc with
    | nil =>
      refine StOk_ite_fst _ _ _ ?_ ?_
      · exact ⟨goodB_snoc2 _ _ _ hg (hx _) (hx _) (fun _ => rfl),
          fun _ => rfl⟩
      · exact ⟨goodB_snoc _ _ hg (hx _), hflag2 hnt _ (by rfl)⟩
    | cons o rest =>
      cases o with
      | ok h =>
        exact ⟨goodB_snoc _ _ hg (hx _), hflag2 hnt _ (by rfl)⟩
      | proxyErr =>
        cases rest with
        | nil =>
          exact ⟨goodB_snoc2 _ _ _ hg (hx _) (hx _) (fun _ => rfl),
            fun _ => rfl⟩
        | cons o2 rest2 =>
          cases o2 <;>
            exact ⟨goodB_snoc2 _ _ _ hg (hx _) (hx _) (fun _ => rfl),
              fun _ => rfl⟩
      | sslErr =>
        cases rest with
        | nil =>
          refine StOk_ite_fst _ _ _ ?_ ?_
          · exact ⟨goodB_snoc2 _ _ _ hg (hx _) (hx _) (absurdTrig (by rfl)),
              hflag3 hnt _ _ (by rfl) (by rfl)⟩
          · exact ⟨goodB_snoc _ _ hg (hx _), hflag2 hnt _ (by rfl)⟩
        | cons o2 rest2 =>
          cases o2 <;>
          · refine StOk_ite_fst _ _ _ ?_ ?_
            · exact ⟨goodB_snoc2 _ _ _ hg (hx _) (hx _) (absurdTrig (by rfl)),
                hflag3 hnt _ _ (by rfl) (by rfl)⟩
            · exact ⟨goodB_snoc _ _ hg (hx _), hflag2 hnt _ (by rfl)⟩
      | connErr refused =>
        cases rest with
        | nil =>
          refine StOk_ite_fst _ _ _ ?_ ?_
          · exact ⟨goodB_snoc2 _ _ _ hg (hx _) (hx _) (fun _ => rfl),
              fun _ => rfl⟩
          · exact ⟨goodB_snoc _ _ hg (hx _), hflag2 hnt _ (by rfl)⟩
        | cons o2 rest2 =>
          cases o2 <;>
          · refine StOk_ite_fst _ _ _ ?_ ?_
            · exact ⟨goodB_snoc2 _ _ _ hg (hx _) (hx _) (fun _ => rfl),
                fun _ => rfl⟩
            · exact ⟨goodB_snoc _ _ hg (hx _), hflag2 hnt _ (by rfl)⟩
      | httpErr status =>
        refine StOk_ite_fst _ _ _ ?_ ?_ <;>
          exact ⟨goodB_snoc _ _ hg (hx _), hflag2 hnt _ (by rfl)⟩

theorem StOk_rotate (cfg : ProxyCfg) (st : AttState) (h : StOk st) :
    StOk (rotateSt cfg st) := by
  obtain ⟨t, f, c, sc, ro⟩ := st
  cases ro <;> exact h

theorem attemptLoop_StOk (cfg : ProxyCfg) :
    ∀ (k : Nat) (b : Bool) (st : AttState), StOk st →
      StOk (attemptLoop cfg k b st).1 := by
  intro k
  induction k with
  | zero => intro b st h; exact h
  | succ k ih =>
    intro b st h
    have hst1 : StOk (if b then st else rotateSt cfg st) := by
      cases b
      · exact StOk_rotate cfg st h
      · exact h
    have h1 := attempt1_StOk cfg (if b then st else rotateSt cfg st) hst1
    simp only [attemptLoop]
    rcases ha : attempt1 cfg (if b then st else rotateSt cfg st) with ⟨st', out⟩
    rw [ha] at h1
    cases out with
    | success hh => exact h1
    | cont => exact ih false st' h1
    | brk => exact h1

theorem urlSlots_StOk (cfg : ProxyCfg) :
    ∀ (n : Nat) (st : AttState), StOk st → StOk (urlSlots cfg n st).1 := by
  intro n
  induction n with
  | zero => intro st h; exact h
  | succ n ih =>
    intro st h
    have h1 := attemptLoop_StOk cfg 3 true st h
    simp only [urlSlots]
    rcases ha : attemptLoop cfg 3 true st with ⟨st', r⟩
    rw [ha] at h1
    cases r with
    | some hh => exact h1
    | none => exact ih st' h1

theorem getPageProxyCall_goodB (cfg : ProxyCfg) (cur0 : Option Str)
    (script : List ReqOutcome) (rots : List (Option Str)) (slots : Nat) :
    goodB (getPageProxyCall cfg cur0 script rots slots).1 = true := by
  have h := urlSlots_StOk cfg slots ⟨[], false, cur0, script, rots⟩
    ⟨rfl, fun hh => hh⟩
  exact h.1

theorem allNoneB_mem {t : List Req} (h : allNoneB t = true) {q : Req}
    (hq : q ∈ t) : q.proxy = none := by
  rw [allNoneB, List.all_eq_true] at h
  simpa using h q hq

theorem goodB_decomp : ∀ (t1 : List Req) (r : Req) (t2 : List Req),
    goodB (t1 ++ r :: t2) = true → isTrigger r = true →
    ∀ q ∈ t2, q.proxy = none := by
  intro t1
  induction t1 with
  | nil =>
    intro r t2 hg htr q hq
    rw [List.nil_append] at hg
    unfold goodB at hg
    simp only [Bool.and_eq_true, Bool.or_eq_true, Bool.not_eq_true'] at hg
    obtain ⟨h1, _⟩ := hg
    rcases h1 with h1 | h1
    · rw [htr] at h1; exact absurd h1 (by simp)
    · exact allNoneB_mem h1 hq
  | cons a t1' ih =>
    intro r t2 hg htr q hq
    rw [List.cons_append] at hg
    unfold goodB at hg
    simp only [Bool.and_eq_true] at hg
    exact ih r t2 hg.2 htr q hq

/-- C9 (amended). Within one call of the page fetcher, once a primary request
fails with a proxy-specific error, every later request of that call is sent
without a proxy. -/
theorem proxy_fallback_within_call (cfg : ProxyCfg) (cur0 : Option Str)
    (script : List ReqOutcome) (rots : List (Option Str)) (slots : Nat)
    (t1 : List Req) (r : Req) (t2 : List Req)
    (hsplit : (getPageProxyCall cfg cur0 script rots slots).1 = t1 ++ r :: t2)
    (hpe : isPE r.outcome = true) (hsub : r.sub = false) :
    ∀ q ∈ t2, q.proxy = none := by
  have hg := getPageProxyCall_goodB cfg cur0 script rots slots
  rw [hsplit] at hg
  exact goodB_decomp t1 r t2 hg (by simp [isTrigger, hpe, hsub])

def c9cfg : ProxyCfg := ⟨[strL "p"], true⟩

def c9script : List ReqOutcome :=
  [.proxyErr, .connErr false, .connErr false, .connErr false]

def c9tail : List Req :=
  [⟨none, .connErr false, true⟩, ⟨none, .connErr false, false⟩,
   ⟨none, .connErr false, false⟩]

theorem proxy_fallback_within_call_witness :
    (getPageProxyCall c9cfg (some (strL "p")) c9script [] 1).1 =
      [] ++ (⟨some (strL "p"), ReqOutcome.proxyErr, false⟩ : Req) :: c9tail ∧
    ∀ q ∈ c9tail, q.proxy = none := by
  refine ⟨by decide, ?_⟩
  exact proxy_fallback_within_call c9cfg (some (strL "p")) c9script [] 1
    [] ⟨some (strL "p"), ReqOutcome.proxyErr, false⟩ c9tail
    (by decide) (by decide) (by decide)

def c9sess : List Req × List Req :=
  let c1 := getPageProxyCall c9cfg (some (strL "p"))
    [.proxyErr, .ok (strL "h1")] [] 1
  let c2 := getPageProxyCall c9cfg c1.2.1 [.ok (strL "h2")] [] 1
  (c1.1, c2.1)

/-- C9 (counterexample). `tried_without_proxy` is a local variable of each
`_get_page_html` call (line 116), so the fallback does not persist across
calls of the same session: the first call records a proxy-specific failure of
a proxy-routed request, yet a request of the second call is again sent
through the proxy, because the flag was reset and `self._current_proxies`
was never cleared. -/
theorem proxy_fallback_counterexample :
    ((∃ r ∈ c9sess.1, isPE r.outcome = true ∧ r.proxy ≠ none) ∧
      ∃ q ∈ c9sess.2, q.proxy ≠ none) := by
  decide
